import Mathlib

/-!
Verification of the mudbrick in-place text/image editing engine
(`text-edit.js`, the latest module version in the source tree).

The JavaScript source is shallowly embedded: JS numbers are modelled as `ℚ`
(the claims under consideration are structural and never hinge on binary
floating-point rounding), JS strings as `String`, JS `Map`s as insertion
ordered association lists, and the DOM overlay divs as explicit records.
External collaborators (pdf.js, pdf-lib, the canvas raster) enter as oracle
function parameters: `measure` for `widthOfTextAtSize`, `embedPng`/`embedJpg`
for image embedding, and sampler oracles for canvas pixel reads.
-/

namespace Mudbrick

/-- JS `Math.round`: round half towards positive infinity. -/
def jsRound (q : ℚ) : ℤ := ⌊q + 1/2⌋

/-- JS `String.prototype.includes` (substring containment). -/
def strIncludes (s sub : String) : Bool := decide (sub.toList <:+: s.toList)

/-- JS `String.prototype.toLowerCase` (ASCII range, which is all the source uses). -/
def jsToLower (s : String) : String := s.map Char.toLower

/-! ## Layout Reconstructor: mapped text items

`groupIntoLines` first maps pdf.js text items to screen-space records; the
deduplication and column-split stages only consult the fields below. -/

/-- The screen-space projection of one extracted pdf.js text item, as built at
the top of `groupIntoLines` (fields relevant to dedup / column split). -/
structure MappedItem where
  str : String
  left : ℚ
  top : ℚ
  width : ℚ
deriving DecidableEq, Repr

/-! ## detectColumnSplit -/

/-- `NUM_BUCKETS` from `detectColumnSplit`. -/
def NUM_BUCKETS : ℕ := 100

/-- `Set.add` on the per-bucket set of quantized Y bands. -/
def insertBand (s : List ℤ) (y : ℤ) : List ℤ := if y ∈ s then s else y :: s

/-- One iteration of `detectColumnSplit`'s first loop: add the item's
quantized Y band to every bucket its horizontal extent intersects
(`for (let b = start; b <= end; b++) bucketYSets[b].add(yBand)`). -/
def addItemToBuckets (bucketWidth : ℚ) (buckets : List (List ℤ)) (item : MappedItem) :
    List (List ℤ) :=
  if item.str.trim = "" then buckets
  else
    let yBand : ℤ := jsRound (item.top / 5) * 5
    let start : ℤ := max 0 ⌊item.left / bucketWidth⌋
    let stop : ℤ := min ((NUM_BUCKETS : ℤ) - 1) ⌊(item.left + item.width) / bucketWidth⌋
    buckets.mapIdx fun b s => if start ≤ (b : ℤ) ∧ (b : ℤ) ≤ stop then insertBand s yBand else s

/-- Mutable state of `detectColumnSplit`'s gap scan
(`bestStart`, `bestEnd`, `bestWidth`, `gapStart`; `-1` is the JS sentinel). -/
structure GapScan where
  bestStart : ℤ
  bestEnd : ℤ
  bestWidth : ℤ
  gapStart : ℤ
deriving DecidableEq, Repr

/-- One iteration of `detectColumnSplit`'s scan over buckets `minB..maxB`. -/
def gapStep (histogram : List ℕ) (thr : ℕ) (st : GapScan) (b : ℕ) : GapScan :=
  if histogram.getD b 0 ≤ thr then
    if st.gapStart = -1 then { st with gapStart := (b : ℤ) } else st
  else if st.gapStart ≠ -1 then
    if (b : ℤ) - st.gapStart > st.bestWidth then
      { bestStart := st.gapStart, bestEnd := (b : ℤ), bestWidth := (b : ℤ) - st.gapStart,
        gapStart := -1 }
    else { st with gapStart := -1 }
  else st

/-- `Math.floor(0.30 * NUM_BUCKETS)` (exact also in double precision). -/
def minB : ℕ := 30

/-- `Math.floor(0.70 * NUM_BUCKETS)` (exact also in double precision). -/
def maxB : ℕ := 70

/-- The Y-band histogram of `detectColumnSplit`: per bucket, the number of
distinct quantized Y bands whose non-whitespace items intersect the bucket. -/
def columnHistogram (mapped : List MappedItem) (pageWidth : ℚ) : List ℕ :=
  (mapped.foldl (addItemToBuckets (pageWidth / (NUM_BUCKETS : ℚ)))
    (List.replicate NUM_BUCKETS [])).map List.length

/-- The scan of `detectColumnSplit` over the central buckets `minB..maxB`. -/
def gapScanRun (histogram : List ℕ) (thr : ℕ) : GapScan :=
  (List.range' minB (maxB - minB + 1)).foldl (gapStep histogram thr)
    { bestStart := -1, bestEnd := -1, bestWidth := 0, gapStart := -1 }

/-- The scan result after the trailing-gap fixup at the end of the bucket
scan loop (`if (gapStart !== -1)` followed by the final width comparison). -/
def gapScanFinal (histogram : List ℕ) (thr : ℕ) : GapScan :=
  let scanned := gapScanRun histogram thr
  if scanned.gapStart ≠ -1 then
    if (maxB : ℤ) - scanned.gapStart > scanned.bestWidth then
      { scanned with bestStart := scanned.gapStart, bestEnd := (maxB : ℤ), bestWidth := (maxB : ℤ) - scanned.gapStart }
    else scanned
  else scanned

/-- `detectColumnSplit(mapped, pageWidth)`: detect a two-column layout from the
horizontal distribution of text items, counting distinct Y bands per bucket.
Returns the split X or `none` for single-column pages; the scan stages are
split into named helper definitions (histogram, central scan, trailing fixup).

`Math.floor(maxCount * 0.15)` is rendered as `maxCount * 15 / 100` in `ℕ`. -/
def detectColumnSplit (mapped : List MappedItem) (pageWidth : ℚ) : Option ℚ :=
  let bucketWidth := pageWidth / (NUM_BUCKETS : ℚ)
  let histogram := columnHistogram mapped pageWidth
  let maxCount := histogram.foldl max 0
  if maxCount = 0 then none
  else
    let emptyThreshold : ℕ := max 2 (maxCount * 15 / 100)
    let final := gapScanFinal histogram emptyThreshold
    if final.bestWidth < 3 then none
    else
      let leftContent := (histogram.take final.bestStart.toNat).sum
      let rightContent := (histogram.drop final.bestEnd.toNat).sum
      if leftContent < 5 ∨ rightContent < 5 then none
      else some ((((final.bestStart + final.bestEnd) : ℤ) : ℚ) / 2 * bucketWidth)

/-! ### Synthetic two-column fixture (spec §8, column-detection property) -/

/-- The five vertical band positions of the synthetic fixtures. -/
def fixtureTops : List ℚ := [0, 20, 40, 60, 80]

/-- Synthetic runs densely filling x ∈ [0,280] and x ∈ [360,600] across five
distinct vertical bands, with nothing in (280,360). -/
def twoColFixture : List MappedItem :=
  fixtureTops.flatMap fun t =>
    [{ str := "left", left := 0, top := t, width := 280 },
     { str := "right", left := 360, top := t, width := 240 }]

/-- Synthetic runs uniformly spanning x ∈ [0,600] across five vertical bands. -/
def uniformFixture : List MappedItem :=
  fixtureTops.map fun t => { str := "full", left := 0, top := t, width := 600 }

/-! ## groupIntoLines: deduplication of overlapping text items -/

/-- The rounded screen-position key used by `groupIntoLines`' dedup step
(`Math.round(item.left) + "," + Math.round(item.top)`). -/
def itemKey (item : MappedItem) : ℤ × ℤ := (jsRound item.left, jsRound item.top)

/-- State of the dedup loop: the `deduped` output array and the
`seen` map from position key to index into `deduped`. -/
structure DedupState where
  deduped : List MappedItem
  seen : List ((ℤ × ℤ) × ℕ)
deriving DecidableEq, Repr

/-- `seen.get(key)` on the position-key map. -/
def seenLookup (seen : List ((ℤ × ℤ) × ℕ)) (key : ℤ × ℤ) : Option ℕ :=
  (seen.find? fun e => decide (e.1 = key)).map (·.2)

/-- One iteration of `groupIntoLines`' dedup loop: whitespace-only items are
skipped; a colliding key replaces the earlier entry in place; a fresh key is
appended and registered in `seen`. -/
def dedupStep (st : DedupState) (item : MappedItem) : DedupState :=
  if item.str.trim = "" then st
  else
    match seenLookup st.seen (itemKey item) with
    | some idx => { st with deduped := st.deduped.set idx item }
    | none =>
        { deduped := st.deduped ++ [item], seen := st.seen ++ [(itemKey item, st.deduped.length)] }

/-- The dedup stage of `groupIntoLines`: keep only the last item at each
rounded screen position (later in extraction order = drawn on top). -/
def dedupItems (mapped : List MappedItem) : List MappedItem :=
  (mapped.foldl dedupStep { deduped := [], seen := [] }).deduped

/-- Items of `l` at a given position key. -/
def keyFilter (key : ℤ × ℤ) (l : List MappedItem) : List MappedItem :=
  l.filter fun it => decide (itemKey it = key)

/-- Non-whitespace items of `l` at a given position key. -/
def nonWsKeyFilter (key : ℤ × ℤ) (l : List MappedItem) : List MappedItem :=
  l.filter fun it => decide (it.str.trim ≠ "" ∧ itemKey it = key)


/-- Replacing the unique element of `xs` satisfying `p` by another element
satisfying `p` leaves exactly the new element in the filtered view. -/
theorem filter_set_pos {X : Type} (p : X → Bool) :
    ∀ (xs : List X) (idx : ℕ) (h : idx < xs.length) (it : X),
      p it = true → p xs[idx] = true → xs.filter p = [xs[idx]] →
      (xs.set idx it).filter p = [it] := by
  intro xs
  induction xs with
  | nil => intro idx h; simp at h
  | cons a tl ih =>
    intro idx h it hit ha hfil
    cases idx with
    | zero =>
      simp only [List.getElem_cons_zero] at ha hfil
      rw [List.filter_cons_of_pos ha] at hfil
      obtain ⟨-, htl⟩ := List.cons.inj hfil
      rw [List.set_cons_zero, List.filter_cons_of_pos hit, htl]
    | succ n =>
      have hn : n < tl.length := by simpa using h
      simp only [List.getElem_cons_succ] at ha hfil
      by_cases hpa : p a = true
      · rw [List.filter_cons_of_pos hpa] at hfil
        obtain ⟨-, h2⟩ := List.cons.inj hfil
        exfalso
        have hmem : tl[n] ∈ tl.filter p := List.mem_filter.2 ⟨List.getElem_mem hn, ha⟩
        rw [h2] at hmem
        simp at hmem
      · rw [List.filter_cons_of_neg hpa] at hfil
        rw [List.set_cons_succ, List.filter_cons_of_neg hpa]
        exact ih n hn it hit ha hfil

/-- Replacing an element not satisfying `p` by another element not
satisfying `p` does not change the filtered view. -/
theorem filter_set_neg {X : Type} (p : X → Bool) :
    ∀ (xs : List X) (idx : ℕ) (it : X),
      p it = false → (∀ h : idx < xs.length, p xs[idx] = false) →
      (xs.set idx it).filter p = xs.filter p := by
  intro xs
  induction xs with
  | nil => intro idx it _ _; rfl
  | cons a tl ih =>
    intro idx it hit ha
    cases idx with
    | zero =>
      have ha0 : p a = false := by simpa using ha (by simp)
      rw [List.set_cons_zero, List.filter_cons_of_neg (by simp [hit]),
        List.filter_cons_of_neg (by simp [ha0])]
    | succ n =>
      have ha2 : ∀ h : n < tl.length, p tl[n] = false := by
        intro h; simpa using ha (by simpa using h)
      rw [List.set_cons_succ]
      by_cases hpa : p a = true
      · rw [List.filter_cons_of_pos hpa, List.filter_cons_of_pos hpa, ih n it hit ha2]
      · rw [List.filter_cons_of_neg hpa, List.filter_cons_of_neg hpa, ih n it hit ha2]

/-- `keyFilter` view of replacing the unique key-matching element. -/
theorem keyFilter_set_pos (key : ℤ × ℤ) (l : List MappedItem) (idx : ℕ) (h : idx < l.length)
    (item : MappedItem) (hitem : itemKey item = key) (hfil : keyFilter key l = [l[idx]]) :
    keyFilter key (l.set idx item) = [item] := by
  have hmem : l[idx] ∈ keyFilter key l := by rw [hfil]; exact List.mem_singleton.2 rfl
  have hkey : decide (itemKey l[idx] = key) = true := (List.mem_filter.1 hmem).2
  exact filter_set_pos _ l idx h item (by simp [hitem]) hkey hfil

/-- `keyFilter` view of replacing a non-matching element by a non-matching one. -/
theorem keyFilter_set_neg (key : ℤ × ℤ) (l : List MappedItem) (idx : ℕ) (item : MappedItem)
    (hitem : itemKey item ≠ key) (hprev : ∀ h : idx < l.length, itemKey l[idx] ≠ key) :
    keyFilter key (l.set idx item) = keyFilter key l :=
  filter_set_neg _ l idx item (by simp [hitem]) (fun h => by simp [hprev h])

/-- `seen.get` over a map extended by one entry. -/
theorem seenLookup_append_single (s : List ((ℤ × ℤ) × ℕ)) (k : ℤ × ℤ) (n : ℕ) (key : ℤ × ℤ) :
    seenLookup (s ++ [(k, n)]) key =
      (seenLookup s key).or (if key = k then some n else none) := by
  simp only [seenLookup, List.find?_append]
  cases hfind : s.find? fun e => decide (e.1 = key) with
  | some e => simp [Option.or]
  | none =>
    by_cases hk : key = k
    · subst hk; simp [List.find?, Option.or]
    · have hk2 : ¬ (k = key) := fun h => hk h.symm
      simp [List.find?, hk2, Option.or, hk]

/-- `keyFilter` distributes over appending one item with the same key. -/
theorem keyFilter_append_hit (key : ℤ × ℤ) (l : List MappedItem) (item : MappedItem)
    (hk : itemKey item = key) :
    keyFilter key (l ++ [item]) = keyFilter key l ++ [item] := by
  simp [keyFilter, List.filter_append, hk]

/-- `keyFilter` ignores an appended item with a different key. -/
theorem keyFilter_append_miss (key : ℤ × ℤ) (l : List MappedItem) (item : MappedItem)
    (hk : itemKey item ≠ key) :
    keyFilter key (l ++ [item]) = keyFilter key l := by
  simp [keyFilter, List.filter_append, hk]

/-- `nonWsKeyFilter` distributes over appending a matching non-whitespace item. -/
theorem nonWsKeyFilter_append_hit (key : ℤ × ℤ) (l : List MappedItem) (item : MappedItem)
    (hws : item.str.trim ≠ "") (hk : itemKey item = key) :
    nonWsKeyFilter key (l ++ [item]) = nonWsKeyFilter key l ++ [item] := by
  simp [nonWsKeyFilter, List.filter_append, hws, hk]

/-- `nonWsKeyFilter` ignores an appended whitespace or key-mismatched item. -/
theorem nonWsKeyFilter_append_miss (key : ℤ × ℤ) (l : List MappedItem) (item : MappedItem)
    (h : item.str.trim = "" ∨ itemKey item ≠ key) :
    nonWsKeyFilter key (l ++ [item]) = nonWsKeyFilter key l := by
  rcases h with h | h <;> simp [nonWsKeyFilter, List.filter_append, h]

/-- Unfolding `dedupStep` on a whitespace-only item. -/
theorem dedupStep_ws (st : DedupState) (item : MappedItem) (hws : item.str.trim = "") :
    dedupStep st item = st := by
  unfold dedupStep; rw [if_pos hws]

/-- Unfolding `dedupStep` when the key is already registered. -/
theorem dedupStep_of_some (st : DedupState) (item : MappedItem) (idx : ℕ)
    (hws : ¬ item.str.trim = "") (hlook : seenLookup st.seen (itemKey item) = some idx) :
    dedupStep st item = { st with deduped := st.deduped.set idx item } := by
  unfold dedupStep; rw [if_neg hws, hlook]

/-- Unfolding `dedupStep` when the key is fresh. -/
theorem dedupStep_of_none (st : DedupState) (item : MappedItem)
    (hws : ¬ item.str.trim = "") (hlook : seenLookup st.seen (itemKey item) = none) :
    dedupStep st item =
      { deduped := st.deduped ++ [item], seen := st.seen ++ [(itemKey item, st.deduped.length)] } := by
  unfold dedupStep; rw [if_neg hws, hlook]

/-- Invariant of the dedup fold; `p` is the prefix of items processed so far:
`seen` indexes `deduped` correctly and injectively, and for every position key
the deduplicated output holds exactly the last non-whitespace item of the
prefix with that key. -/
structure DedupInv (p : List MappedItem) (st : DedupState) : Prop where
  lookA : ∀ key idx, seenLookup st.seen key = some idx →
    ∃ h : idx < st.deduped.length, itemKey st.deduped[idx] = key
  lookB : ∀ key, seenLookup st.seen key = none → ∀ it ∈ st.deduped, itemKey it ≠ key
  inj : ∀ k1 k2 i, seenLookup st.seen k1 = some i → seenLookup st.seen k2 = some i → k1 = k2
  sem : ∀ key, keyFilter key st.deduped = (nonWsKeyFilter key p).getLast?.toList

theorem dedupInv_init : DedupInv [] { deduped := [], seen := [] } := by
  refine ⟨?_, ?_, ?_, ?_⟩
  · intro key idx h; simp [seenLookup] at h
  · intro key _ it hit; exact absurd hit (List.not_mem_nil it)
  · intro k1 k2 i h; simp [seenLookup] at h
  · intro key; simp [keyFilter, nonWsKeyFilter]

theorem dedupInv_step (p : List MappedItem) (st : DedupState) (item : MappedItem)
    (hinv : DedupInv p st) : DedupInv (p ++ [item]) (dedupStep st item) := by
  by_cases hws : item.str.trim = ""
  · rw [dedupStep_ws st item hws]
    refine ⟨hinv.lookA, hinv.lookB, hinv.inj, ?_⟩
    intro key
    rw [nonWsKeyFilter_append_miss key p item (Or.inl hws)]
    exact hinv.sem key
  · cases hlook : seenLookup st.seen (itemKey item) with
    | some idx =>
      rw [dedupStep_of_some st item idx hws hlook]
      obtain ⟨hlen, hkey⟩ := hinv.lookA _ _ hlook
      have hfilK : keyFilter (itemKey item) st.deduped = [st.deduped[idx]] := by
        have hmem : st.deduped[idx] ∈ keyFilter (itemKey item) st.deduped :=
          List.mem_filter.2 ⟨List.getElem_mem hlen, by simp [hkey]⟩
        rw [hinv.sem (itemKey item)] at hmem ⊢
        rw [Option.mem_toList, Option.mem_def] at hmem
        rw [hmem]; rfl
      refine ⟨?_, ?_, ?_, ?_⟩
      · intro key i hl
        by_cases hidx : i = idx
        · subst hidx
          have hkk : key = itemKey item := hinv.inj _ _ _ hl hlook
          refine ⟨by simpa using hlen, ?_⟩
          rw [List.getElem_set_self (by simpa using hlen), hkk]
        · obtain ⟨hi, hk⟩ := hinv.lookA _ _ hl
          refine ⟨by simpa using hi, ?_⟩
          rw [List.getElem_set_ne (fun h => hidx h.symm) (by simpa using hi)]
          exact hk
      · intro key hnone it hit
        have hne : key ≠ itemKey item := by
          intro h; rw [h, hlook] at hnone; exact Option.noConfusion hnone
        rcases List.mem_or_eq_of_mem_set hit with hmem | heq
        · exact hinv.lookB key hnone it hmem
        · subst heq; exact fun h => hne h.symm
      · exact hinv.inj
      · intro key
        show keyFilter key (st.deduped.set idx item) = (nonWsKeyFilter key (p ++ [item])).getLast?.toList
        by_cases hk : key = itemKey item
        · subst hk
          rw [keyFilter_set_pos _ st.deduped idx hlen item rfl hfilK,
            nonWsKeyFilter_append_hit _ p item hws rfl, List.getLast?_concat]
          rfl
        · have hprev : ∀ h : idx < st.deduped.length, itemKey st.deduped[idx] ≠ key := by
            intro h
            rw [hkey]
            exact fun h2 => hk h2.symm
          rw [keyFilter_set_neg key st.deduped idx item (fun h => hk h.symm) hprev,
            nonWsKeyFilter_append_miss key p item (Or.inr (fun h => hk h.symm))]
          exact hinv.sem key
    | none =>
      rw [dedupStep_of_none st item hws hlook]
      refine ⟨?_, ?_, ?_, ?_⟩
      · intro key i hl
        rw [seenLookup_append_single] at hl
        cases hold : seenLookup st.seen key with
        | some j =>
          rw [hold] at hl; simp only [Option.or] at hl
          obtain ⟨hj, hk⟩ := hinv.lookA _ _ hold
          have hij : i = j := by injection hl with h; exact h.symm
          subst hij
          have hi2 : i < (st.deduped ++ [item]).length := by
            simp only [List.length_append, List.length_cons, List.length_nil]; omega
          refine ⟨hi2, ?_⟩
          rw [List.getElem_append_left hj]
          exact hk
        | none =>
          rw [hold] at hl; simp only [Option.or] at hl
          by_cases hk : key = itemKey item
          · subst hk
            rw [if_pos rfl] at hl
            have hi : i = st.deduped.length := by injection hl with h; exact h.symm
            subst hi
            have hi2 : st.deduped.length < (st.deduped ++ [item]).length := by
              simp
            refine ⟨hi2, ?_⟩
            rw [List.getElem_concat_length st.deduped item _ rfl hi2]
          · rw [if_neg hk] at hl
            exact Option.noConfusion hl
      · intro key hnone it hit
        rw [seenLookup_append_single] at hnone
        cases hold : seenLookup st.seen key with
        | some j => rw [hold] at hnone; simp [Option.or] at hnone
        | none =>
          rw [hold] at hnone; simp only [Option.or] at hnone
          have hk : key ≠ itemKey item := by
            intro h; rw [if_pos h] at hnone; exact Option.noConfusion hnone
          rcases List.mem_append.1 hit with hmem | hmem
          · exact hinv.lookB key hold it hmem
          · have heq : it = item := by simpa using hmem
            subst heq; exact fun h => hk h.symm
      · intro k1 k2 i h1 h2
        rw [seenLookup_append_single] at h1 h2
        cases ho1 : seenLookup st.seen k1 with
        | some j1 =>
          rw [ho1] at h1; simp only [Option.or] at h1
          have hj1 : j1 = i := Option.some.inj h1
          subst hj1
          obtain ⟨hlt1, -⟩ := hinv.lookA _ _ ho1
          cases ho2 : seenLookup st.seen k2 with
          | some j2 =>
            rw [ho2] at h2; simp only [Option.or] at h2
            have hj2 : j2 = j1 := Option.some.inj h2
            subst hj2
            exact hinv.inj _ _ _ ho1 ho2
          | none =>
            rw [ho2] at h2; simp only [Option.or] at h2
            by_cases hk2 : k2 = itemKey item
            · rw [if_pos hk2] at h2
              have : st.deduped.length = j1 := Option.some.inj h2
              omega
            · rw [if_neg hk2] at h2; exact Option.noConfusion h2
        | none =>
          rw [ho1] at h1; simp only [Option.or] at h1
          by_cases hk1 : k1 = itemKey item
          · rw [if_pos hk1] at h1
            have hi1 : st.deduped.length = i := Option.some.inj h1
            cases ho2 : seenLookup st.seen k2 with
            | some j2 =>
              rw [ho2] at h2; simp only [Option.or] at h2
              have hj2 : j2 = i := Option.some.inj h2
              subst hj2
              obtain ⟨hlt2, -⟩ := hinv.lookA _ _ ho2
              omega
            | none =>
              rw [ho2] at h2; simp only [Option.or] at h2
              by_cases hk2 : k2 = itemKey item
              · rw [hk1, hk2]
              · rw [if_neg hk2] at h2; exact Option.noConfusion h2
          · rw [if_neg hk1] at h1; exact Option.noConfusion h1
      · intro key
        by_cases hk : key = itemKey item
        · subst hk
          have hold : keyFilter (itemKey item) st.deduped = [] := by
            rw [keyFilter, List.filter_eq_nil_iff]
            intro a ha
            simp only [decide_eq_true_eq]
            exact hinv.lookB _ hlook a ha
          rw [keyFilter_append_hit _ _ _ rfl, hold,
            nonWsKeyFilter_append_hit _ p item hws rfl, List.getLast?_concat]
          rfl
        · rw [keyFilter_append_miss _ _ _ (fun h => hk h.symm),
            nonWsKeyFilter_append_miss key p item (Or.inr (fun h => hk h.symm))]
          exact hinv.sem key

theorem dedupInv_fold :
    ∀ (l p : List MappedItem) (st : DedupState), DedupInv p st →
      DedupInv (p ++ l) (l.foldl dedupStep st) := by
  intro l
  induction l with
  | nil => intro p st h; simpa using h
  | cons a tl ih =>
    intro p st h
    have h2 := ih (p ++ [a]) (dedupStep st a) (dedupInv_step p st a h)
    simpa [List.append_assoc] using h2

/-- For every position key, `dedupItems` keeps exactly the last
non-whitespace item at that key. -/
theorem dedupItems_sem (l : List MappedItem) (key : ℤ × ℤ) :
    keyFilter key (dedupItems l) = (nonWsKeyFilter key l).getLast?.toList := by
  have h := dedupInv_fold l [] { deduped := [], seen := [] } dedupInv_init
  simpa [dedupItems] using h.sem key

/-- `nonWsKeyFilter` distributes over list append. -/
theorem nonWsKeyFilter_append (key : ℤ × ℤ) (a b : List MappedItem) :
    nonWsKeyFilter key (a ++ b) = nonWsKeyFilter key a ++ nonWsKeyFilter key b :=
  List.filter_append a b

/-- If `j` is the last non-whitespace position with its key, then the last
non-whitespace item at that key is the item at `j`. -/
theorem nonWsKeyFilter_getLast (l : List MappedItem) (j : ℕ) (hj : j < l.length)
    (hwj : l[j].str.trim ≠ "")
    (hlast : ∀ (k : ℕ) (hk : k < l.length), j < k → l[k].str.trim ≠ "" →
      itemKey l[k] ≠ itemKey l[j]) :
    (nonWsKeyFilter (itemKey l[j]) l).getLast? = some l[j] := by
  have hdrop : nonWsKeyFilter (itemKey l[j]) (l.drop (j+1)) = [] := by
    rw [nonWsKeyFilter, List.filter_eq_nil_iff]
    intro x hx
    obtain ⟨m, hm, hxm⟩ := List.mem_iff_getElem.1 hx
    rw [List.getElem_drop] at hxm
    have hlen : j + 1 + m < l.length := by
      have := List.length_drop (j+1) l ▸ hm
      omega
    subst hxm
    simp only [decide_eq_true_eq, not_and]
    intro hws2
    exact hlast (j+1+m) hlen (by omega) hws2
  have htake : nonWsKeyFilter (itemKey l[j]) (l.take (j+1)) =
      nonWsKeyFilter (itemKey l[j]) (l.take j) ++ [l[j]] := by
    rw [List.take_succ, List.getElem?_eq_getElem hj]
    exact nonWsKeyFilter_append_hit _ _ _ hwj rfl
  calc (nonWsKeyFilter (itemKey l[j]) l).getLast?
      = (nonWsKeyFilter (itemKey l[j]) (l.take (j+1) ++ l.drop (j+1))).getLast? := by
        rw [List.take_append_drop]
    _ = (nonWsKeyFilter (itemKey l[j]) (l.take j) ++ [l[j]]).getLast? := by
        rw [nonWsKeyFilter_append, hdrop, List.append_nil, htake]
    _ = some l[j] := List.getLast?_concat _

/-- Claim C3: two non-whitespace runs at the same rounded screen position —
`groupIntoLines`' dedup step keeps exactly the later one in extraction order
and drops the earlier one. -/
theorem groupIntoLines_dedup_keeps_later
    (l : List MappedItem) (i j : ℕ) (hi : i < l.length) (hj : j < l.length) (hij : i < j)
    (hwi : l[i].str.trim ≠ "") (hwj : l[j].str.trim ≠ "")
    (hkey : itemKey l[i] = itemKey l[j])
    (hlast : ∀ (k : ℕ) (hk : k < l.length), j < k → l[k].str.trim ≠ "" →
      itemKey l[k] ≠ itemKey l[j]) :
    l[j] ∈ dedupItems l
    ∧ keyFilter (itemKey l[j]) (dedupItems l) = [l[j]]
    ∧ (l[i] ∈ dedupItems l → l[i] = l[j]) := by
  have hfil : keyFilter (itemKey l[j]) (dedupItems l) = [l[j]] := by
    rw [dedupItems_sem, nonWsKeyFilter_getLast l j hj hwj hlast]; rfl
  refine ⟨?_, hfil, ?_⟩
  · have hmem : l[j] ∈ keyFilter (itemKey l[j]) (dedupItems l) := by
      rw [hfil]; exact List.mem_singleton.2 rfl
    exact List.mem_of_mem_filter hmem
  · intro hmem
    have hmem2 : l[i] ∈ keyFilter (itemKey l[j]) (dedupItems l) :=
      List.mem_filter.2 ⟨hmem, by simp [hkey]⟩
    rw [hfil] at hmem2
    exact List.mem_singleton.1 hmem2

set_option maxRecDepth 100000 in
/-- Claim C4: on the synthetic two-column page (width 600, runs densely
filling x ∈ [0,280] and x ∈ [360,600] across five vertical bands each,
nothing in (280,360)) `detectColumnSplit` returns a split X in [300,340];
on runs uniformly spanning [0,600] it returns no split. -/
theorem detectColumnSplit_fixture :
    (∃ x, detectColumnSplit twoColFixture 600 = some x ∧ 300 ≤ x ∧ x ≤ 340)
    ∧ detectColumnSplit uniformFixture 600 = none := by
  refine ⟨⟨321, ?_, by norm_num, by norm_num⟩, ?_⟩ <;> with_unfolding_all decide

/-- The bound invariant maintained by `detectColumnSplit`'s bucket scan. -/
def gapInv (st : GapScan) : Prop :=
  (0 < st.bestWidth → 30 ≤ st.bestStart ∧ st.bestEnd = st.bestStart + st.bestWidth ∧ st.bestEnd ≤ 70)
  ∧ (st.gapStart ≠ -1 → 30 ≤ st.gapStart ∧ st.gapStart ≤ 70)
  ∧ 0 ≤ st.bestWidth

theorem gapStep_inv (hist : List ℕ) (thr : ℕ) (st : GapScan) (b : ℕ)
    (hb : 30 ≤ b ∧ b ≤ 70) (h : gapInv st) : gapInv (gapStep hist thr st b) := by
  obtain ⟨h1, h2, h3⟩ := h
  unfold gapStep
  by_cases hle : hist.getD b 0 ≤ thr
  · rw [if_pos hle]
    by_cases hg : st.gapStart = -1
    · rw [if_pos hg]
      refine ⟨h1, fun _ => ⟨?_, ?_⟩, h3⟩
      · show (30 : ℤ) ≤ (b : ℤ)
        exact_mod_cast hb.1
      · show (b : ℤ) ≤ 70
        exact_mod_cast hb.2
    · rw [if_neg hg]; exact ⟨h1, h2, h3⟩
  · rw [if_neg hle]
    by_cases hg : st.gapStart ≠ -1
    · rw [if_pos hg]
      by_cases hw : (b : ℤ) - st.gapStart > st.bestWidth
      · rw [if_pos hw]
        obtain ⟨hg1, hg2⟩ := h2 hg
        refine ⟨fun _ => ⟨hg1, ?_, ?_⟩, fun hcon => absurd rfl hcon, ?_⟩
        · show (b : ℤ) = st.gapStart + ((b : ℤ) - st.gapStart)
          ring
        · show (b : ℤ) ≤ 70
          exact_mod_cast hb.2
        · show (0 : ℤ) ≤ (b : ℤ) - st.gapStart
          omega
      · rw [if_neg hw]
        exact ⟨h1, fun hcon => absurd rfl hcon, h3⟩
    · rw [if_neg hg]; exact ⟨h1, h2, h3⟩

theorem foldl_gapStep_inv (hist : List ℕ) (thr : ℕ) :
    ∀ (bs : List ℕ) (st : GapScan), (∀ b ∈ bs, 30 ≤ b ∧ b ≤ 70) → gapInv st →
      gapInv (bs.foldl (gapStep hist thr) st) := by
  intro bs
  induction bs with
  | nil => intro st _ h; exact h
  | cons b tl ih =>
    intro st hb h
    exact ih _ (fun c hc => hb c (List.mem_cons_of_mem b hc))
      (gapStep_inv hist thr st b (hb b (List.mem_cons_self b tl)) h)

theorem gapScanRun_inv (hist : List ℕ) (thr : ℕ) : gapInv (gapScanRun hist thr) := by
  apply foldl_gapStep_inv
  · intro b hb
    rw [List.mem_range'] at hb
    obtain ⟨i, hi, rfl⟩ := hb
    have e1 : minB = 30 := rfl
    have e2 : maxB = 70 := rfl
    omega
  · exact ⟨fun h => absurd h (by norm_num), fun h => absurd rfl h, le_refl 0⟩

theorem gapScanFinal_inv (hist : List ℕ) (thr : ℕ) : gapInv (gapScanFinal hist thr) := by
  have h := gapScanRun_inv hist thr
  obtain ⟨h1, h2, h3⟩ := h
  unfold gapScanFinal
  have hmb : (maxB : ℤ) = 70 := rfl
  by_cases hg : (gapScanRun hist thr).gapStart ≠ -1
  · rw [if_pos hg]
    by_cases hw : (maxB : ℤ) - (gapScanRun hist thr).gapStart > (gapScanRun hist thr).bestWidth
    · rw [if_pos hw]
      obtain ⟨hg1, hg2⟩ := h2 hg
      refine ⟨fun _ => ⟨hg1, ?_, ?_⟩, h2, ?_⟩
      · show (maxB : ℤ) = (gapScanRun hist thr).gapStart +
          ((maxB : ℤ) - (gapScanRun hist thr).gapStart)
        ring
      · show (maxB : ℤ) ≤ 70
        omega
      · show (0 : ℤ) ≤ (maxB : ℤ) - (gapScanRun hist thr).gapStart
        omega
    · rw [if_neg hw]
      exact ⟨h1, h2, h3⟩
  · rw [if_neg hg]
    exact ⟨h1, h2, h3⟩

/-- Whitespace-only items never touch the bucket sets. -/
theorem foldl_addItem_ws (bw : ℚ) :
    ∀ (l : List MappedItem), (∀ it ∈ l, it.str.trim = "") →
      ∀ init : List (List ℤ), l.foldl (addItemToBuckets bw) init = init := by
  intro l
  induction l with
  | nil => intro _ init; rfl
  | cons a tl ih =>
    intro hl init
    have ha : addItemToBuckets bw init a = init := by
      unfold addItemToBuckets
      rw [if_pos (hl a (List.mem_cons_self a tl))]
    rw [List.foldl_cons, ha]
    exact ih (fun it hit => hl it (List.mem_cons_of_mem a hit)) init

theorem foldl_max_replicate_zero : ∀ (n : ℕ) (a : ℕ), (List.replicate n 0).foldl max a = a := by
  intro n
  induction n with
  | zero => intro a; rfl
  | succ m ih =>
    intro a
    rw [List.replicate_succ, List.foldl_cons, Nat.max_zero]
    exact ih a

/-- Claim C10: `detectColumnSplit` is total and returns either no split or a
split X in the central band [0.30 × pageWidth, 0.70 × pageWidth]; with no
non-whitespace item it returns no split. -/
theorem detectColumnSplit_total_range (mapped : List MappedItem) (W : ℚ) (hW : 0 < W) :
    (∀ x, detectColumnSplit mapped W = some x → 30 / 100 * W ≤ x ∧ x ≤ 70 / 100 * W)
    ∧ ((∀ it ∈ mapped, it.str.trim = "") → detectColumnSplit mapped W = none) := by
  constructor
  · intro x hx
    unfold detectColumnSplit at hx
    set hist := columnHistogram mapped W with hhist
    by_cases hmc : hist.foldl max 0 = 0
    · rw [if_pos hmc] at hx; exact Option.noConfusion hx
    rw [if_neg hmc] at hx
    set F := gapScanFinal hist (max 2 (hist.foldl max 0 * 15 / 100)) with hF
    obtain ⟨h1, h2, h3⟩ := gapScanFinal_inv hist (max 2 (hist.foldl max 0 * 15 / 100))
    rw [← hF] at h1 h2 h3
    by_cases hbw : F.bestWidth < 3
    · rw [if_pos hbw] at hx; exact Option.noConfusion hx
    rw [if_neg hbw] at hx
    by_cases hlr : (hist.take F.bestStart.toNat).sum < 5 ∨ (hist.drop F.bestEnd.toNat).sum < 5
    · rw [if_pos hlr] at hx; exact Option.noConfusion hx
    rw [if_neg hlr] at hx
    have hxval : x = ((F.bestStart + F.bestEnd : ℤ) : ℚ) / 2 * (W / (NUM_BUCKETS : ℚ)) :=
      (Option.some.inj hx).symm
    obtain ⟨hs30, hse, he70⟩ := h1 (by omega)
    have hsum_lo : (60 : ℚ) ≤ ((F.bestStart + F.bestEnd : ℤ) : ℚ) := by
      exact_mod_cast (by omega : (60 : ℤ) ≤ F.bestStart + F.bestEnd)
    have hsum_hi : ((F.bestStart + F.bestEnd : ℤ) : ℚ) ≤ 140 := by
      exact_mod_cast (by omega : F.bestStart + F.bestEnd ≤ (140 : ℤ))
    rw [hxval]
    unfold NUM_BUCKETS
    constructor
    · calc 30 / 100 * W = 60 * (W / 200) := by ring
        _ ≤ ((F.bestStart + F.bestEnd : ℤ) : ℚ) * (W / 200) := by
            apply mul_le_mul_of_nonneg_right hsum_lo (by positivity)
        _ = ((F.bestStart + F.bestEnd : ℤ) : ℚ) / 2 * (W / (100 : ℕ)) := by
            push_cast
            ring
    · calc ((F.bestStart + F.bestEnd : ℤ) : ℚ) / 2 * (W / (100 : ℕ))
          = ((F.bestStart + F.bestEnd : ℤ) : ℚ) * (W / 200) := by push_cast; ring
        _ ≤ 140 * (W / 200) := by
            apply mul_le_mul_of_nonneg_right hsum_hi (by positivity)
        _ = 70 / 100 * W := by ring
  · intro hws
    have hch : columnHistogram mapped W = List.replicate NUM_BUCKETS 0 := by
      unfold columnHistogram
      rw [foldl_addItem_ws _ mapped hws _, List.map_replicate]
      rfl
    simp only [detectColumnSplit, hch, foldl_max_replicate_zero]
    rfl

/-! ### Concrete witnesses for the dedup and column-split theorems -/

/-- A run at rounded position (10, 5), earlier in extraction order. -/
def dedupItemA : MappedItem := { str := "old", left := 10.2, top := 5, width := 3 }

/-- A distinct run whose position rounds to the same (10, 5), later in order. -/
def dedupItemB : MappedItem := { str := "new", left := 9.8, top := 5.4, width := 4 }

def dedupList : List MappedItem := [dedupItemA, dedupItemB]

theorem groupIntoLines_dedup_keeps_later_witness :
    dedupItemB ∈ dedupItems dedupList
    ∧ keyFilter (itemKey dedupItemB) (dedupItems dedupList) = [dedupItemB]
    ∧ (dedupItemA ∈ dedupItems dedupList → dedupItemA = dedupItemB) :=
  groupIntoLines_dedup_keeps_later dedupList 0 1 (by decide) (by decide) (by decide)
    (by with_unfolding_all decide) (by with_unfolding_all decide)
    (by with_unfolding_all decide)
    (by
      intro k hk h1 hw2
      exfalso
      have hk2 : k < 2 := hk
      omega)

theorem detectColumnSplit_total_range_witness :
    (0 : ℚ) < 600
    ∧ ((∀ x, detectColumnSplit twoColFixture 600 = some x →
          30 / 100 * 600 ≤ x ∧ x ≤ 70 / 100 * 600)
       ∧ ((∀ it ∈ twoColFixture, it.str.trim = "") →
          detectColumnSplit twoColFixture 600 = none)) :=
  ⟨by norm_num, detectColumnSplit_total_range twoColFixture 600 (by norm_num)⟩

/-! ## Raster Color Sampler: sampleTextColor

`sampleTextColor(canvas, x, y, width, height, bgHex)` reads back the pixel
rectangle from the canvas (the external raster surface) and then runs a pure
histogram computation over the RGBA data.  The embedding below models the
pure part, taking the read-back pixel list directly; the `bgHex` argument is
modelled as `Option` of an RGB triple (`none` stands for a missing or
non-7-character hex string, for which the source keeps the default 230). -/

/-- One RGBA pixel of the read-back `ImageData`. -/
structure Pixel where
  r : ℕ
  g : ℕ
  b : ℕ
  a : ℕ
deriving DecidableEq, Repr

/-- The luminance formula `r * 0.299 + g * 0.587 + b * 0.114`. -/
def lumOf (r g b : ℕ) : ℚ := r * (299 / 1000 : ℚ) + g * (587 / 1000 : ℚ) + b * (114 / 1000 : ℚ)

/-- The background luminance used as filter base: parsed from `bgHex` when it
is a 7-character hex color, else the default 230 (skip near-white only). -/
def bgLumOf (bgHex : Option (ℕ × ℕ × ℕ)) : ℚ :=
  match bgHex with
  | some (r, g, b) => lumOf r g b
  | none => 230

/-- `skipThreshold = bgLum - 40`: any pixel within 40 luminance units of the
background is skipped. -/
def skipThresholdOf (bgHex : Option (ℕ × ℕ × ℕ)) : ℚ := bgLumOf bgHex - 40

/-- A pixel enters the dark-pixel histogram iff its alpha is at least 128 and
its luminance does not exceed the skip threshold (the loop body's two
`continue` tests). -/
def pixelQualifies (thr : ℚ) (p : Pixel) : Bool :=
  decide (128 ≤ p.a) && decide (lumOf p.r p.g p.b ≤ thr)

/-- `(c >> 2) << 2`: quantize a channel to the nearest lower multiple of 4. -/
def quantize (c : ℕ) : ℕ := c / 4 * 4

/-- `colorCounts[key] = (colorCounts[key] || 0) + 1` on an insertion-ordered
association list (JS object with non-index string keys preserves insertion
order). -/
def bumpCount (counts : List ((ℕ × ℕ × ℕ) × ℕ)) (key : ℕ × ℕ × ℕ) :
    List ((ℕ × ℕ × ℕ) × ℕ) :=
  if (counts.find? fun e => decide (e.1 = key)).isSome then
    counts.map fun e => if e.1 = key then (e.1, e.2 + 1) else e
  else counts ++ [(key, 1)]

/-- The dark-pixel histogram loop of `sampleTextColor`. -/
def textColorHistogram (thr : ℚ) (data : List Pixel) : List ((ℕ × ℕ × ℕ) × ℕ) :=
  data.foldl
    (fun counts p =>
      if pixelQualifies thr p then
        bumpCount counts (quantize p.r, quantize p.g, quantize p.b)
      else counts)
    []

/-- The `count > maxCount` scan: first strictly-maximal entry in insertion
order wins; `none` when the histogram is empty. -/
def pickMaxColor (entries : List ((ℕ × ℕ × ℕ) × ℕ)) : Option (ℕ × ℕ × ℕ) :=
  (entries.foldl (fun acc e => if e.2 > acc.1 then (e.2, some e.1) else acc)
    (0, (none : Option (ℕ × ℕ × ℕ)))).2

/-- `sampleTextColor`: most common sufficiently-dark quantized color of the
region, or black `(0,0,0)` (the source's `'#000000'`) if no pixel qualifies. -/
def sampleTextColor (data : List Pixel) (bgHex : Option (ℕ × ℕ × ℕ)) : ℕ × ℕ × ℕ :=
  let thr := skipThresholdOf bgHex
  match pickMaxColor (textColorHistogram thr data) with
  | some c => c
  | none => (0, 0, 0)

theorem textColorHistogram_fold_filter (thr : ℚ) :
    ∀ (data : List Pixel) (acc : List ((ℕ × ℕ × ℕ) × ℕ)),
      data.foldl
        (fun counts p =>
          if pixelQualifies thr p then
            bumpCount counts (quantize p.r, quantize p.g, quantize p.b)
          else counts) acc =
      (data.filter (pixelQualifies thr)).foldl
        (fun counts p =>
          if pixelQualifies thr p then
            bumpCount counts (quantize p.r, quantize p.g, quantize p.b)
          else counts) acc := by
  intro data
  induction data with
  | nil => intro acc; rfl
  | cons p tl ih =>
    intro acc
    by_cases hq : pixelQualifies thr p = true
    · rw [List.filter_cons_of_pos hq, List.foldl_cons, List.foldl_cons, if_pos hq]
      exact ih _
    · rw [List.filter_cons_of_neg hq, List.foldl_cons, if_neg hq]
      exact ih acc

/-- The histogram only sees qualifying pixels. -/
theorem textColorHistogram_filter (thr : ℚ) (data : List Pixel) :
    textColorHistogram thr data = textColorHistogram thr (data.filter (pixelQualifies thr)) := by
  unfold textColorHistogram
  exact textColorHistogram_fold_filter thr data []

/-- Claim C5: the foreground sampler's skip threshold is
`luminance(background) - 40`; every pixel whose luminance exceeds it (or
whose alpha is below 128) is excluded from the dark-pixel histogram; a
mid-gray background of luminance 150 yields threshold 110, under which a
pixel of luminance 130 is excluded; and with no qualifying pixel the result
is black. -/
theorem sampleTextColor_threshold :
    (∀ r g b : ℕ, skipThresholdOf (some (r, g, b)) = lumOf r g b - 40)
    ∧ (∀ (bgHex : Option (ℕ × ℕ × ℕ)) (data : List Pixel),
        sampleTextColor data bgHex =
          sampleTextColor (data.filter (pixelQualifies (skipThresholdOf bgHex))) bgHex)
    ∧ skipThresholdOf (some (150, 150, 150)) = 110
    ∧ lumOf 130 130 130 = 130
    ∧ pixelQualifies (skipThresholdOf (some (150, 150, 150))) ⟨130, 130, 130, 255⟩ = false
    ∧ sampleTextColor [⟨130, 130, 130, 255⟩] (some (150, 150, 150)) = (0, 0, 0)
    ∧ (∀ (bgHex : Option (ℕ × ℕ × ℕ)) (data : List Pixel),
        (∀ p ∈ data, pixelQualifies (skipThresholdOf bgHex) p = false) →
        sampleTextColor data bgHex = (0, 0, 0)) := by
  refine ⟨fun r g b => rfl, ?_, by norm_num [skipThresholdOf, bgLumOf, lumOf], ?_, ?_, ?_, ?_⟩
  · intro bgHex data
    simp only [sampleTextColor]
    rw [← textColorHistogram_filter]
  · norm_num [lumOf]
  · unfold pixelQualifies
    norm_num [lumOf, skipThresholdOf, bgLumOf]
  · with_unfolding_all rfl
  · intro bgHex data hall
    simp only [sampleTextColor]
    have hempty : textColorHistogram (skipThresholdOf bgHex) data = [] := by
      unfold textColorHistogram
      induction data with
      | nil => rfl
      | cons p tl ih =>
        rw [List.foldl_cons, if_neg (by simp [hall p (List.mem_cons_self p tl)])]
        exact ih fun q hq => hall q (List.mem_cons_of_mem p hq)
    rw [hempty]
    rfl

theorem sampleTextColor_threshold_witness :
    sampleTextColor [⟨130, 130, 130, 255⟩, ⟨200, 10, 10, 100⟩] (some (150, 150, 150)) =
      (0, 0, 0) :=
  sampleTextColor_threshold.2.2.2.2.2.2 (some (150, 150, 150))
    [⟨130, 130, 130, 255⟩, ⟨200, 10, 10, 100⟩] (by with_unfolding_all decide)

/-! ## Commit Engine: shared draw-call vocabulary

`page.drawRectangle` / `page.drawText` / `page.drawImage` calls issued by the
commit functions, in issue order.  `PDFLib.rgb(r, g, b)` takes components in
[0,1]; hex channels are divided by 255. -/

/-- An RGB color as passed to `PDFLib.rgb`. -/
structure Rgb where
  r : ℚ
  g : ℚ
  b : ℚ
deriving DecidableEq, Repr

/-- A document-mutation call recorded during commit. -/
inductive DrawCall where
  | rect (x y w h : ℚ) (color : Rgb)
  | text (txt : String) (x y size : ℚ) (font : String) (color : Rgb)
  | image (x y w h : ℚ)
deriving DecidableEq, Repr

/-- `PDFLib.rgb(1, 1, 1)`. -/
def whiteRgb : Rgb := { r := 1, g := 1, b := 1 }

/-! ## Image Region Editor: commitImageEdits

Image embedding (`doc.embedPng` / `doc.embedJpg`) is external; it is modelled
by oracle functions from the replacement bytes to `Option` of an (opaque)
image handle, `none` standing for a thrown embed error. -/

/-- `entry.replaceSrc`: the uploaded replacement file (bytes and MIME type). -/
structure ReplaceSrc where
  bytes : List ℕ
  type : String
deriving DecidableEq, Repr

/-- One image-overlay entry (`imageOverlays` element): original PDF geometry
plus the user-chosen action. -/
structure ImageEntry where
  pdfX : ℚ
  pdfY : ℚ
  pdfW : ℚ
  pdfH : ℚ
  action : String
  replaceSrc : Option ReplaceSrc
deriving DecidableEq, Repr

/-- The draw calls `commitImageEdits` issues for one changed region:
`delete` covers with a white rectangle of the original geometry; `replace`
covers, then tries PNG or JPEG embedding by MIME type with one JPEG-codec
retry on failure, skipping only this region's image draw if both fail. -/
def imageRegionDraws (embedPng embedJpg : List ℕ → Option ℕ) (e : ImageEntry) :
    List DrawCall :=
  if e.action = "delete" then
    [DrawCall.rect e.pdfX e.pdfY e.pdfW e.pdfH whiteRgb]
  else if e.action = "replace" then
    match e.replaceSrc with
    | some src =>
        let firstTry :=
          if strIncludes src.type "png" then embedPng src.bytes else embedJpg src.bytes
        DrawCall.rect e.pdfX e.pdfY e.pdfW e.pdfH whiteRgb ::
          (match firstTry.or (embedJpg src.bytes) with
            | some _ => [DrawCall.image e.pdfX e.pdfY e.pdfW e.pdfH]
            | none => [])
    | none => []
  else []

/-- `commitImageEdits(pdfBytes, pageNum)`: filters the overlays to those with
a pending action, returns `null` when there are none, otherwise issues each
changed region's draw calls in order.  (Loading the document and the final
`doc.save()` are external; the returned value models the sequence of
mutation calls of a successful commit.) -/
def commitImageEdits (embedPng embedJpg : List ℕ → Option ℕ)
    (imageOverlays : List ImageEntry) : Option (List DrawCall) :=
  let changes := imageOverlays.filter fun o => decide (o.action ≠ "none")
  if changes = [] then none
  else some (changes.flatMap (imageRegionDraws embedPng embedJpg))

/-- Claim C7: `commitImageEdits` emits zero draw calls for `none`-action
regions; a `delete` region draws only its cover rectangle; a `replace`
region draws the cover, then embeds with one JPEG retry, and on continued
failure keeps only the cover while every other changed region still commits
(the output is the concatenation of the per-region draws). -/
theorem commitImageEdits_actions (embedPng embedJpg : List ℕ → Option ℕ) :
    (∀ (pre post : List ImageEntry) (e : ImageEntry), e.action = "none" →
      commitImageEdits embedPng embedJpg (pre ++ e :: post) =
        commitImageEdits embedPng embedJpg (pre ++ post))
    ∧ (∀ e : ImageEntry, e.action = "delete" →
        imageRegionDraws embedPng embedJpg e =
          [DrawCall.rect e.pdfX e.pdfY e.pdfW e.pdfH whiteRgb])
    ∧ (∀ (e : ImageEntry) (src : ReplaceSrc), e.action = "replace" →
        e.replaceSrc = some src →
        (if strIncludes src.type "png" then embedPng src.bytes
          else embedJpg src.bytes) = none →
        embedJpg src.bytes = none →
        imageRegionDraws embedPng embedJpg e =
          [DrawCall.rect e.pdfX e.pdfY e.pdfW e.pdfH whiteRgb])
    ∧ (∀ (e : ImageEntry) (src : ReplaceSrc) (img : ℕ), e.action = "replace" →
        e.replaceSrc = some src →
        ((if strIncludes src.type "png" then embedPng src.bytes
          else embedJpg src.bytes).or (embedJpg src.bytes)) = some img →
        imageRegionDraws embedPng embedJpg e =
          [DrawCall.rect e.pdfX e.pdfY e.pdfW e.pdfH whiteRgb,
           DrawCall.image e.pdfX e.pdfY e.pdfW e.pdfH])
    ∧ (∀ (ovs : List ImageEntry) (ds : List DrawCall),
        commitImageEdits embedPng embedJpg ovs = some ds →
        ds = (ovs.filter fun o => decide (o.action ≠ "none")).flatMap
          (imageRegionDraws embedPng embedJpg)) := by
  refine ⟨?_, ?_, ?_, ?_, ?_⟩
  · intro pre post e he
    unfold commitImageEdits
    have hfil : (pre ++ e :: post).filter (fun o => decide (o.action ≠ "none")) =
        (pre ++ post).filter (fun o => decide (o.action ≠ "none")) := by
      rw [List.filter_append, List.filter_append, List.filter_cons_of_neg (by simp [he])]
    rw [hfil]
  · intro e he
    unfold imageRegionDraws
    rw [if_pos he]
  · intro e src he hsrc hfirst hjpg
    unfold imageRegionDraws
    rw [if_neg (by rw [he]; decide), if_pos he, hsrc]
    simp only
    rw [hfirst, hjpg]
    rfl
  · intro e src img he hsrc hemb
    unfold imageRegionDraws
    rw [if_neg (by rw [he]; decide), if_pos he, hsrc]
    simp only
    rw [hemb]
  · intro ovs ds hds
    unfold commitImageEdits at hds
    by_cases hch : ovs.filter (fun o => decide (o.action ≠ "none")) = []
    · rw [if_pos hch] at hds; exact Option.noConfusion hds
    · rw [if_neg hch] at hds
      exact (Option.some.inj hds).symm

/-- An embedding oracle that always fails (throws). -/
def noEmbed : List ℕ → Option ℕ := fun _ => none

/-- A deleted image region. -/
def imgDelete : ImageEntry :=
  { pdfX := 10, pdfY := 700, pdfW := 100, pdfH := 50, action := "delete", replaceSrc := none }

/-- A replaced image region whose replacement fails to embed. -/
def imgFail : ImageEntry :=
  { pdfX := 200, pdfY := 300, pdfW := 80, pdfH := 40, action := "replace",
    replaceSrc := some { bytes := [1, 2], type := "image/png" } }

theorem commitImageEdits_actions_witness :
    imageRegionDraws noEmbed noEmbed imgDelete = [DrawCall.rect 10 700 100 50 whiteRgb]
    ∧ imageRegionDraws noEmbed noEmbed imgFail = [DrawCall.rect 200 300 80 40 whiteRgb] :=
  ⟨(commitImageEdits_actions noEmbed noEmbed).2.1 imgDelete rfl,
   (commitImageEdits_actions noEmbed noEmbed).2.2.1 imgFail
     { bytes := [1, 2], type := "image/png" } rfl rfl rfl rfl⟩

/-! ## Style Inferencer: font mapping and style detection -/

/-- `escapeHtml`: escape `&`, `<`, `>`, `"` in order. -/
def escapeHtml (s : String) : String :=
  (((s.replace "&" "&amp;").replace "<" "&lt;").replace ">" "&gt;").replace "\"" "&quot;"

/-- `normalizeInlineHtml`: non-breaking spaces to spaces, drop empty style
spans, trim.  (The source's replace uses a case-insensitive regex; the
lowercase spelling is the one the code itself produces.) -/
def normalizeInlineHtml (html : String) : String :=
  ((html.replace "\u00A0" " ").replace "<span style=\"\"></span>" "").trim

/-- The pdf-lib `StandardFonts` keys reachable from `mapToStandardFont`. -/
def standardFontNames : List String :=
  ["Courier", "CourierBold", "CourierOblique", "CourierBoldOblique",
   "Helvetica", "HelveticaBold", "HelveticaOblique", "HelveticaBoldOblique",
   "TimesRoman", "TimesRomanBold", "TimesRomanItalic", "TimesRomanBoldItalic",
   "Symbol", "ZapfDingbats"]

/-- `mapToStandardFont`: map a PDF font name to a pdf-lib StandardFonts key. -/
def mapToStandardFont (fontName : String) : String :=
  let lower := jsToLower fontName
  if strIncludes lower "courier" || strIncludes lower "mono" then
    if (strIncludes lower "bold" && (strIncludes lower "oblique" || strIncludes lower "italic")) then
      "CourierBoldOblique"
    else if strIncludes lower "bold" then "CourierBold"
    else if strIncludes lower "oblique" || strIncludes lower "italic" then "CourierOblique"
    else "Courier"
  else if strIncludes lower "times" || strIncludes lower "roman" ||
      (strIncludes lower "serif" && !strIncludes lower "sans") then
    if strIncludes lower "bold" && strIncludes lower "italic" then "TimesRomanBoldItalic"
    else if strIncludes lower "bold" then "TimesRomanBold"
    else if strIncludes lower "italic" then "TimesRomanItalic"
    else "TimesRoman"
  else if strIncludes lower "bold" && (strIncludes lower "oblique" || strIncludes lower "italic") then
    "HelveticaBoldOblique"
  else if strIncludes lower "bold" then "HelveticaBold"
  else if strIncludes lower "oblique" || strIncludes lower "italic" then "HelveticaOblique"
  else "Helvetica"

/-- `mapToCSSFont`: map a PDF font name to a CSS font-family stack. -/
def mapToCSSFont (fontName : String) : String :=
  let lower := jsToLower fontName
  if strIncludes lower "courier" || strIncludes lower "mono" then
    "\"Courier New\", Courier, monospace"
  else if strIncludes lower "times" || strIncludes lower "roman" ||
      (strIncludes lower "serif" && !strIncludes lower "sans") then
    "\"Times New Roman\", Times, serif"
  else if strIncludes lower "arial" || strIncludes lower "helvetica" ||
      strIncludes lower "sans" then
    "Arial, Helvetica, sans-serif"
  else if strIncludes lower "georgia" then "Georgia, serif"
  else if strIncludes lower "verdana" then "Verdana, sans-serif"
  else if strIncludes lower "trebuchet" then "\"Trebuchet MS\", sans-serif"
  else if strIncludes lower "tahoma" then "Tahoma, sans-serif"
  else if strIncludes lower "palatino" then
    "\"Palatino Linotype\", \"Book Antiqua\", Palatino, serif"
  else if strIncludes lower "garamond" then "Garamond, serif"
  else "Arial, Helvetica, sans-serif"

/-- A bold/italic pair as returned by the style detectors. -/
structure FontStyle where
  bold : Bool
  italic : Bool
deriving DecidableEq, Repr

/-- `detectFontStyle`: infer weight and slant from the PDF font name. -/
def detectFontStyle (fontName : String) : FontStyle :=
  let lower := jsToLower fontName
  { bold := strIncludes lower "bold" || strIncludes lower "heavy" || strIncludes lower "black",
    italic := strIncludes lower "italic" || strIncludes lower "oblique" }

/-- The pdf.js per-font style record (`textContent.styles[fontName]`). -/
structure StyleInfo where
  fontWeight : String
  fontStyle : String
  fontFamily : String
deriving DecidableEq, Repr

/-- `detectFontStyleWithMeta`: prefer explicit style metadata, falling back
to name parsing when the metadata signals neither bold nor italic. -/
def detectFontStyleWithMeta (fontName : String) (styleInfo : Option StyleInfo) : FontStyle :=
  let lowerWeight := jsToLower (match styleInfo with | some s => s.fontWeight | none => "")
  let lowerStyle := jsToLower (match styleInfo with | some s => s.fontStyle | none => "")
  let lowerFamily := jsToLower (match styleInfo with | some s => s.fontFamily | none => "")
  let fromMeta : FontStyle :=
    { bold := lowerWeight = "bold" || lowerWeight = "700" || lowerWeight = "800" ||
        lowerWeight = "900" || strIncludes lowerFamily "bold",
      italic := lowerStyle = "italic" || lowerStyle = "oblique" ||
        strIncludes lowerFamily "italic" || strIncludes lowerFamily "oblique" }
  if fromMeta.bold || fromMeta.italic then fromMeta
  else detectFontStyle fontName

/-- `getFont` of `commitTextEdits`, reduced to the name of the embedded font
variant: a user-uploaded custom font short-circuits; otherwise the name plus
`-Bold`/`-Italic` suffixes goes through `mapToStandardFont` with a final
`Helvetica` guard for unknown StandardFonts keys. -/
def getFontName (customFont : Option String) (fontName : String) (bold italic : Bool) : String :=
  if fontName = "custom" && customFont.isSome then "__custom"
  else
    let variant := fontName ++ (if bold then "-Bold" else "") ++ (if italic then "-Italic" else "")
    let stdName := mapToStandardFont variant
    if stdName ∈ standardFontNames then stdName else "Helvetica"

/-! ## Block Editing Session: data model

The DOM overlay divs (`.text-edit-line`) are modelled as `LineDiv` records
holding `textContent`, `innerHTML` and the `dataset` fields the session
reads and writes.  The live rich-run decomposition of a div's children
(`extractRunsFromDiv`) is carried as the `runs` field, kept coherent with
`html` by construction.  The page raster snapshot/restore is not modelled
(no claim under consideration reads raster pixels). -/

/-- A rich text run `{text, bold, italic}` (`extractRunsFromDiv` output). -/
structure RichRun where
  text : String
  bold : Bool
  italic : Bool
deriving DecidableEq, Repr

/-- One reconstructed line (`groupIntoLines` output as consumed by the block
session): text, initial inline HTML, screen geometry, font identity and the
original PDF-space data preserved for commit. -/
structure Line where
  text : String
  initialHtml : String
  left : ℚ
  top : ℚ
  width : ℚ
  height : ℚ
  fontSize : ℚ
  fontName : String
  styleInfo : Option StyleInfo
  pdfX : ℚ
  pdfY : ℚ
  pdfFontSize : ℚ
  pdfLineWidth : ℚ
deriving DecidableEq, Repr

/-- One saved line record as pushed by `deactivateBlock` into
`_editedBlocks`. -/
structure SavedLine where
  text : String
  matchedColor : String
  cssFont : String
  bold : Bool
  italic : Bool
  fontSizeOverride : ℚ
  colorOverride : String
  fontFamilyOverride : String
  fontNameOverride : String
  dirty : Bool
  html : String
  originalHtml : String
  runs : List RichRun
  pdfX : ℚ
  pdfY : ℚ
  pdfFontSize : ℚ
  pdfLineWidth : ℚ
  fontName : String
  screenWidth : ℚ
  screenHeight : ℚ
  bgColor : String
deriving DecidableEq, Repr

/-- One live `.text-edit-line` contenteditable div: content plus `dataset`
fields.  `fontSizeOverride = 0` encodes the empty dataset string (JS falsy),
string overrides use `""` for unset.  `dirtyClass` models membership of the
`text-edit-dirty` class. -/
structure LineDiv where
  blockIdx : ℕ
  lineIdx : ℕ
  text : String
  html : String
  runs : List RichRun
  original : String
  originalHtml : String
  fontSizeOverride : ℚ
  colorOverride : String
  fontFamilyOverride : String
  fontNameOverride : String
  bold : Bool
  italic : Bool
  initialBold : Bool
  initialItalic : Bool
  baseBold : Bool
  baseItalic : Bool
  dirtyClass : Bool
  matchedColor : String
  cssFont : String
  fontName : String
  pdfX : ℚ
  pdfY : ℚ
  pdfFontSize : ℚ
  pdfLineWidth : ℚ
  width : ℚ
  height : ℚ
  bgColor : String
deriving DecidableEq, Repr

/-- An undo/redo snapshot (`captureSnapshot` fields; the inline style
mirrors are folded into the dataset fields). -/
structure Snap where
  text : String
  html : String
  bold : Bool
  italic : Bool
  fontSizeOverride : ℚ
  colorOverride : String
  fontFamilyOverride : String
  fontNameOverride : String
deriving DecidableEq, Repr

/-- The module-level mutable session state of the text-edit module:
`active`, `currentViewport` (its scale), `_activeBlockIdx`, the live overlay
divs, `_editedBlocks`, the undo/redo stacks and the uploaded custom font. -/
structure EditState where
  active : Bool
  viewportScale : Option ℚ
  activeBlockIdx : ℤ
  overlays : List LineDiv
  editedBlocks : List (ℕ × List SavedLine)
  undoStack : List Snap
  redoStack : List Snap
  customFont : Option String
deriving Repr

/-- Read-only context of a session: the computed `_paragraphData` and the
external oracles — canvas color samplers (`sampleBackgroundColor`,
`sampleTextColor` reads of the rendered raster) and the DOM rich-run
extraction from an innerHTML string with base bold/italic
(`extractRunsFromDiv`). -/
structure EditContext where
  paras : List (List Line)
  sampleBg : Line → String
  sampleText : Line → String → String
  runsOf : String → Bool → Bool → List RichRun

/-- JS `Map.prototype.get` on the insertion-ordered association list. -/
def mapGet {α : Type} (m : List (ℕ × α)) (k : ℕ) : Option α :=
  (m.find? fun e => decide (e.1 = k)).map (·.2)

/-- JS `Map.prototype.set`: update in place, else append. -/
def mapSet {α : Type} (m : List (ℕ × α)) (k : ℕ) (v : α) : List (ℕ × α) :=
  if (m.find? fun e => decide (e.1 = k)).isSome then
    m.map fun e => if e.1 = k then (k, v) else e
  else m ++ [(k, v)]

/-- `markDirty`'s change test, also the per-line diff of `deactivateBlock`
and `commitTextEdits`: text changed against `dataset.original`. -/
def lineHasTextChange (d : LineDiv) : Bool := decide (d.text ≠ d.original)

/-- Inline-format diff: normalized `innerHTML` against `dataset.originalHtml`. -/
def lineHasInlineFormatChange (d : LineDiv) : Bool :=
  decide (normalizeInlineHtml d.html ≠ d.originalHtml)

/-- Format diff: any override set, bold/italic toggled against the
activation-time values, or an inline-format change. -/
def lineHasFormatChange (d : LineDiv) : Bool :=
  decide (d.fontSizeOverride ≠ 0) || decide (d.colorOverride ≠ "") ||
    decide (d.fontFamilyOverride ≠ "") || decide (d.bold ≠ d.initialBold) ||
    decide (d.italic ≠ d.initialItalic) || lineHasInlineFormatChange d

/-- The per-line dirty verdict of `deactivateBlock`
(`hasTextChange || hasFormatChange || isDirty`). -/
def lineDirtyFlag (d : LineDiv) : Bool :=
  lineHasTextChange d || lineHasFormatChange d || d.dirtyClass

/-- `markDirty`: the class is toggled to the recomputed change test. -/
def computeDirtyClass (d : LineDiv) : Bool := lineHasTextChange d || lineHasFormatChange d

/-- The saved record `deactivateBlock` builds for one line div, including the
commit bold/italic resolution (user toggle wins over metadata default). -/
def lineSaved (d : LineDiv) : SavedLine :=
  let commitBold := if d.bold ≠ d.initialBold then d.bold else d.baseBold
  let commitItalic := if d.italic ≠ d.initialItalic then d.italic else d.baseItalic
  { text := d.text
    matchedColor := d.matchedColor
    cssFont := d.cssFont
    bold := commitBold
    italic := commitItalic
    fontSizeOverride := d.fontSizeOverride
    colorOverride := d.colorOverride
    fontFamilyOverride := d.fontFamilyOverride
    fontNameOverride := d.fontNameOverride
    dirty := lineDirtyFlag d
    html := d.html
    originalHtml :=
      if d.originalHtml ≠ "" then d.originalHtml else normalizeInlineHtml (escapeHtml d.original)
    runs := d.runs
    pdfX := d.pdfX
    pdfY := d.pdfY
    pdfFontSize := d.pdfFontSize
    pdfLineWidth := d.pdfLineWidth
    fontName := if d.fontNameOverride ≠ "" then d.fontNameOverride else d.fontName
    screenWidth := d.width
    screenHeight := d.height
    bgColor := if d.bgColor ≠ "" then d.bgColor else "#ffffff" }

/-- `deactivateBlock`: when a block is active, diff and collect its overlay
lines, persist them to `_editedBlocks` iff any line is dirty, remove the
overlays, and clear `_activeBlockIdx`.  The undo/redo stacks are untouched.
(Raster snapshot restore and zone re-display are DOM/raster effects outside
the model.) -/
def deactivateBlock (s : EditState) : EditState :=
  if s.activeBlockIdx < 0 then s
  else
    let A := s.activeBlockIdx.toNat
    let blockLines := s.overlays.filter fun d => decide (d.blockIdx = A)
    let savedLines := blockLines.map lineSaved
    let hasDirty := blockLines.any lineDirtyFlag
    { s with
      overlays := s.overlays.filter fun d => decide (¬ d.blockIdx = A)
      editedBlocks := if hasDirty then mapSet s.editedBlocks A savedLines else s.editedBlocks
      activeBlockIdx := -1 }

/-- The overlay div `activateBlock` creates for one line, restoring any
previously saved per-line state (`savedEdits[li]`). -/
def mkLineDiv (ctx : EditContext) (paraIdx li : ℕ) (line : Line) (saved : Option SavedLine) :
    LineDiv :=
  let bgColor := match saved with
    | some sv => if sv.bgColor ≠ "" then sv.bgColor else ctx.sampleBg line
    | none => ctx.sampleBg line
  let matchedColor := match saved with
    | some sv => if sv.matchedColor ≠ "" then sv.matchedColor else ctx.sampleText line bgColor
    | none => ctx.sampleText line bgColor
  let content : String × String :=
    match saved with
    | some sv =>
        if sv.html ≠ "" then (sv.text, sv.html)
        else if line.initialHtml ≠ "" then (line.text, line.initialHtml)
        else (sv.text, escapeHtml sv.text)
    | none =>
        if line.initialHtml ≠ "" then (line.text, line.initialHtml) else (line.text, escapeHtml line.text)
  let cssFont := match saved with
    | some sv => if sv.cssFont ≠ "" then sv.cssFont else mapToCSSFont line.fontName
    | none => mapToCSSFont line.fontName
  let nameStyle := detectFontStyleWithMeta line.fontName line.styleInfo
  let baseStyle : FontStyle := match saved with
    | some sv => { bold := sv.bold, italic := sv.italic }
    | none => nameStyle
  let fontStyle : FontStyle := match saved with
    | some sv => { bold := sv.bold, italic := sv.italic }
    | none => nameStyle
  let d0 : LineDiv :=
    { blockIdx := paraIdx
      lineIdx := li
      text := content.1
      html := content.2
      runs := ctx.runsOf content.2 fontStyle.bold fontStyle.italic
      original := line.text
      originalHtml := match saved with
        | some sv =>
            if sv.originalHtml ≠ "" then sv.originalHtml
            else normalizeInlineHtml (if line.initialHtml ≠ "" then line.initialHtml else escapeHtml line.text)
        | none =>
            normalizeInlineHtml (if line.initialHtml ≠ "" then line.initialHtml else escapeHtml line.text)
      fontSizeOverride := match saved with | some sv => sv.fontSizeOverride | none => 0
      colorOverride := match saved with | some sv => sv.colorOverride | none => ""
      fontFamilyOverride := match saved with | some sv => sv.fontFamilyOverride | none => ""
      fontNameOverride := match saved with | some sv => sv.fontNameOverride | none => ""
      bold := fontStyle.bold
      italic := fontStyle.italic
      initialBold := baseStyle.bold
      initialItalic := baseStyle.italic
      baseBold := baseStyle.bold
      baseItalic := baseStyle.italic
      dirtyClass := false
      matchedColor := matchedColor
      cssFont := cssFont
      fontName := line.fontName
      pdfX := line.pdfX
      pdfY := line.pdfY
      pdfFontSize := line.pdfFontSize
      pdfLineWidth := line.pdfLineWidth
      width := line.width
      height := line.height
      bgColor := bgColor }
  match saved with
  | some sv => if sv.dirty then { d0 with dirtyClass := computeDirtyClass d0 } else d0
  | none => d0

/-- The overlay creation loop of `activateBlock` (one div per line, indexed). -/
def mkOverlays (ctx : EditContext) (paraIdx : ℕ) (savedEdits : Option (List SavedLine)) :
    ℕ → List Line → List LineDiv
  | _, [] => []
  | li, line :: rest =>
      mkLineDiv ctx paraIdx li line (savedEdits.bind fun sl => sl.get? li) ::
        mkOverlays ctx paraIdx savedEdits (li + 1) rest

/-- The body of `activateBlock` after the guard and the deactivation of the
previous block: record the new `_activeBlockIdx`, bail out when the
paragraph does not exist, otherwise append the block's overlay divs. -/
def activateFresh (ctx : EditContext) (paraIdx : ℕ) (s : EditState) : EditState :=
  let s2 := { s with activeBlockIdx := (paraIdx : ℤ) }
  match ctx.paras.get? paraIdx with
  | none => s2
  | some para =>
      let savedEdits := mapGet s.editedBlocks paraIdx
      { s2 with overlays := s2.overlays ++ mkOverlays ctx paraIdx savedEdits 0 para }

/-- `activateBlock(paraIdx)`: no-op on the already-active block; otherwise
deactivate the currently active block first (persisting its dirty state),
then create the new block's overlays. -/
def activateBlock (ctx : EditContext) (paraIdx : ℕ) (s : EditState) : EditState :=
  if (paraIdx : ℤ) = s.activeBlockIdx then s
  else
    let s1 := if 0 ≤ s.activeBlockIdx then deactivateBlock s else s
    activateFresh ctx paraIdx s1

/-- `exitTextEditMode`: guard on `active`, deactivate any active block, then
tear the session down — overlays removed, `_editedBlocks` reset to a fresh
map, undo/redo stacks cleared, viewport and page context dropped.  The
uploaded custom font is module state that survives. -/
def exitTextEditMode (s : EditState) : EditState :=
  if ¬ s.active then s
  else
    let s1 := if 0 ≤ s.activeBlockIdx then deactivateBlock s else s
    { active := false
      viewportScale := none
      activeBlockIdx := -1
      overlays := []
      editedBlocks := []
      undoStack := []
      redoStack := []
      customFont := s1.customFont }

/-! ## Commit Engine: commitTextEdits -/

/-- One pending change as collected by `commitTextEdits` (from the live
overlay divs or from `_editedBlocks`). -/
structure Change where
  newText : String
  pdfX : ℚ
  pdfY : ℚ
  pdfFontSize : ℚ
  pdfLineWidth : ℚ
  fontName : String
  screenWidth : ℚ
  screenHeight : ℚ
  fontSizeOverride : ℚ
  colorOverride : String
  bold : Bool
  italic : Bool
  runs : List RichRun
  bgColor : String
deriving DecidableEq, Repr

/-- The change `commitTextEdits` collects from one live overlay div, or
`none` when the line has neither a text nor a format change. -/
def changeOfDiv (d : LineDiv) : Option Change :=
  if lineHasTextChange d || lineHasFormatChange d then
    some
      { newText := d.text
        pdfX := d.pdfX
        pdfY := d.pdfY
        pdfFontSize := d.pdfFontSize
        pdfLineWidth := d.pdfLineWidth
        fontName := if d.fontNameOverride ≠ "" then d.fontNameOverride else d.fontName
        screenWidth := d.width
        screenHeight := d.height
        fontSizeOverride := d.fontSizeOverride
        colorOverride := if d.colorOverride ≠ "" then d.colorOverride else d.matchedColor
        bold := if d.bold ≠ d.initialBold then d.bold else d.baseBold
        italic := if d.italic ≠ d.initialItalic then d.italic else d.baseItalic
        runs := d.runs
        bgColor := if d.bgColor ≠ "" then d.bgColor else "#ffffff" }
  else none

/-- The change `commitTextEdits` builds from one dirty saved line. -/
def changeOfSaved (sv : SavedLine) : Change :=
  { newText := sv.text
    pdfX := sv.pdfX
    pdfY := sv.pdfY
    pdfFontSize := sv.pdfFontSize
    pdfLineWidth := sv.pdfLineWidth
    fontName := sv.fontName
    screenWidth := sv.screenWidth
    screenHeight := sv.screenHeight
    fontSizeOverride := sv.fontSizeOverride
    colorOverride := if sv.colorOverride ≠ "" then sv.colorOverride else sv.matchedColor
    bold := sv.bold
    italic := sv.italic
    runs := sv.runs
    bgColor := if sv.bgColor ≠ "" then sv.bgColor else "#ffffff" }

/-- `parseInt` of one hex digit (invalid characters behave as 0; the only
strings reaching the parser are sampler outputs of the form `#rrggbb`). -/
def hexDigitVal (c : Char) : ℕ :=
  if '0' ≤ c && c ≤ '9' then c.toNat - '0'.toNat
  else if 'a' ≤ c && c ≤ 'f' then c.toNat - 'a'.toNat + 10
  else if 'A' ≤ c && c ≤ 'F' then c.toNat - 'A'.toNat + 10
  else 0

/-- Parse a `#rrggbb` hex color into its three channels. -/
def parseHexColor (s : String) : ℕ × ℕ × ℕ :=
  match s.toList with
  | ['#', r1, r2, g1, g2, b1, b2] =>
      (16 * hexDigitVal r1 + hexDigitVal r2, 16 * hexDigitVal g1 + hexDigitVal g2,
        16 * hexDigitVal b1 + hexDigitVal b2)
  | _ => (0, 0, 0)

/-- `PDFLib.rgb` of 0-255 channels. -/
def rgb255 (c : ℕ × ℕ × ℕ) : Rgb := { r := c.1 / 255, g := c.2.1 / 255, b := c.2.2 / 255 }

/-- The effective font size of a change
(`change.fontSizeOverride || change.pdfFontSize`). -/
def changeFontSize (ch : Change) : ℚ :=
  if ch.fontSizeOverride ≠ 0 then ch.fontSizeOverride else ch.pdfFontSize

/-- The text color of a change: the (already override-resolved) color when
present, else black. -/
def changeTextColor (ch : Change) : Rgb :=
  if ch.colorOverride ≠ "" then rgb255 (parseHexColor ch.colorOverride)
  else { r := 0, g := 0, b := 0 }

/-- The cover rectangle `commitTextEdits` draws for one change: original
line geometry plus fixed padding, filled with the sampled background color
(white unless a non-white background was sampled). -/
def coverRectOf (scale : ℚ) (ch : Change) : DrawCall :=
  let rectWidth := (if ch.pdfLineWidth > 0 then ch.pdfLineWidth else ch.screenWidth / scale) + 4
  let pdfLineHeight := max (ch.screenHeight / scale) ch.pdfFontSize
  let rectHeight := max (ch.pdfFontSize * (108 / 100)) (pdfLineHeight * (112 / 100))
  let rectY := ch.pdfY - max (ch.pdfFontSize * (18 / 100)) (pdfLineHeight * (18 / 100))
  let coverColor :=
    if ch.bgColor ≠ "" && ch.bgColor ≠ "#ffffff" then rgb255 (parseHexColor ch.bgColor)
    else whiteRgb
  DrawCall.rect (ch.pdfX - 1) rectY rectWidth rectHeight coverColor

/-- The rich-run drawing loop of `commitTextEdits`: skip empty runs, draw
each run at the cursor, advance the cursor by the run's measured width
(`runFont.widthOfTextAtSize(run.text, fontSize)`, the `measure` oracle) in
its resolved output font. -/
def drawRunsLoop (measure : String → String → ℚ → ℚ) (customFont : Option String)
    (fontName : String) (color : Rgb) (y fontSize : ℚ) :
    ℚ → List RichRun → List DrawCall
  | _, [] => []
  | cursorX, run :: rest =>
      if run.text = "" then
        drawRunsLoop measure customFont fontName color y fontSize cursorX rest
      else
        let runFont := getFontName customFont fontName run.bold run.italic
        DrawCall.text run.text cursorX y fontSize runFont color ::
          drawRunsLoop measure customFont fontName color y fontSize
            (cursorX + measure runFont run.text fontSize) rest

/-- All draw calls `commitTextEdits` issues for one change: the cover
rectangle, then the rich runs left to right starting at the line's original
x — or a single text draw of the whole new text when no rich runs exist. -/
def drawsForChange (measure : String → String → ℚ → ℚ) (customFont : Option String)
    (scale : ℚ) (ch : Change) : List DrawCall :=
  coverRectOf scale ch ::
    (if ch.runs ≠ [] then
      drawRunsLoop measure customFont ch.fontName (changeTextColor ch) ch.pdfY
        (changeFontSize ch) ch.pdfX ch.runs
    else
      [DrawCall.text ch.newText ch.pdfX ch.pdfY (changeFontSize ch)
        (getFontName customFont ch.fontName ch.bold ch.italic) (changeTextColor ch)])

/-- The change list `commitTextEdits` collects after deactivating the active
block: the remaining live overlay divs with changes, then every dirty line
of every record in `_editedBlocks`, in map insertion order. -/
def commitChanges (s : EditState) : List Change :=
  s.overlays.filterMap changeOfDiv ++
    s.editedBlocks.flatMap fun e => (e.2.filter (·.dirty)).map changeOfSaved

/-- `commitTextEdits(pdfBytes, pageNum)`: `null` without a session; first
deactivate the active block (persisting its state), then collect all
changes; `null` when there are none, else the draw calls of all changes in
order.  Returns the final module state together with the optional draw
list (the loaded document and `doc.save()` are external). -/
def commitTextEdits (measure : String → String → ℚ → ℚ) (s : EditState) :
    EditState × Option (List DrawCall) :=
  if ¬ s.active then (s, none)
  else
    let s1 := if 0 ≤ s.activeBlockIdx then deactivateBlock s else s
    let changes := commitChanges s1
    if changes = [] then (s1, none)
    else
      let scale := s1.viewportScale.getD 1
      (s1, some (changes.flatMap (drawsForChange measure s1.customFont scale)))

/-! ## Claim C1: single-active-block discipline -/

theorem mapGet_mapSet_self {α : Type} :
    ∀ (m : List (ℕ × α)) (k : ℕ) (v : α), mapGet (mapSet m k v) k = some v := by
  intro m
  induction m with
  | nil =>
    intro k v
    simp [mapSet, mapGet, List.find?]
  | cons a tl ih =>
    intro k v
    by_cases hk : a.1 = k
    · have hfind : ((a :: tl).find? fun e => decide (e.1 = k)).isSome = true := by
        simp [List.find?, hk]
      unfold mapSet
      rw [if_pos hfind]
      simp only [List.map_cons, if_pos hk]
      simp [mapGet, List.find?]
    · have hstep : (a :: tl).find? (fun e => decide (e.1 = k)) =
          tl.find? fun e => decide (e.1 = k) := by
        simp [List.find?, hk]
      unfold mapSet
      rw [hstep]
      by_cases hsome : (tl.find? fun e => decide (e.1 = k)).isSome = true
      · rw [if_pos hsome]
        have htl : mapGet (mapSet tl k v) k = some v := ih k v
        unfold mapSet at htl
        rw [if_pos hsome] at htl
        simp only [List.map_cons, if_neg hk]
        unfold mapGet at htl ⊢
        rw [List.find?_cons_of_neg _ (by simp [hk])]
        exact htl
      · rw [if_neg hsome]
        have htl : mapGet (mapSet tl k v) k = some v := ih k v
        unfold mapSet at htl
        rw [if_neg hsome] at htl
        unfold mapGet at htl ⊢
        rw [List.cons_append, List.find?_cons_of_neg _ (by simp [hk])]
        exact htl

theorem mkLineDiv_blockIdx (ctx : EditContext) (paraIdx li : ℕ) (line : Line)
    (saved : Option SavedLine) : (mkLineDiv ctx paraIdx li line saved).blockIdx = paraIdx := by
  unfold mkLineDiv
  cases saved with
  | none => rfl
  | some sv =>
    by_cases h : sv.dirty
    · simp only [h, if_pos]
    · simp only [h, if_neg, Bool.false_eq_true, not_false_eq_true]

theorem mem_mkOverlays (ctx : EditContext) (paraIdx : ℕ) (savedEdits : Option (List SavedLine)) :
    ∀ (li : ℕ) (para : List Line) (d : LineDiv),
      d ∈ mkOverlays ctx paraIdx savedEdits li para → d.blockIdx = paraIdx := by
  intro li para
  induction para generalizing li with
  | nil => intro d hd; exact absurd hd (List.not_mem_nil d)
  | cons line rest ih =>
    intro d hd
    rcases List.mem_cons.1 hd with heq | hmem
    · subst heq; exact mkLineDiv_blockIdx ctx paraIdx li line _
    · exact ih (li + 1) d hmem

/-- Claim C1: invoking `activateBlock(B)` while block A is active (and
`B ≠ A`) first deactivates A — persisting A's dirty line state into the
dirty-block store and removing all of A's overlays — strictly before B's
overlay lines are created, and afterwards only B's overlays exist. -/
theorem activateBlock_single_active (ctx : EditContext) (B A : ℕ) (s : EditState)
    (hA : s.activeBlockIdx = (A : ℤ)) (hov : ∀ d ∈ s.overlays, d.blockIdx = A)
    (hBA : B ≠ A) :
    activateBlock ctx B s = activateFresh ctx B (deactivateBlock s)
    ∧ (deactivateBlock s).overlays = []
    ∧ (s.overlays.any lineDirtyFlag = true →
        mapGet (deactivateBlock s).editedBlocks A = some (s.overlays.map lineSaved))
    ∧ (∀ d ∈ (activateBlock ctx B s).overlays, d.blockIdx = B) := by
  have hguard : ¬ ((B : ℤ) = s.activeBlockIdx) := by
    rw [hA]
    intro h
    exact hBA (by exact_mod_cast h)
  have hpos : 0 ≤ s.activeBlockIdx := by rw [hA]; exact Int.ofNat_nonneg A
  have hnotneg : ¬ s.activeBlockIdx < 0 := not_lt.2 hpos
  have htoNat : s.activeBlockIdx.toNat = A := by rw [hA]; rfl
  have hfilter_all : (s.overlays.filter fun d => decide (d.blockIdx = A)) = s.overlays := by
    rw [List.filter_eq_self]
    intro d hd
    simp [hov d hd]
  have hfilter_none : (s.overlays.filter fun d => decide (¬ d.blockIdx = A)) = [] := by
    rw [List.filter_eq_nil_iff]
    intro d hd
    simp [hov d hd]
  have hdeact : deactivateBlock s =
      { s with
        overlays := []
        editedBlocks :=
          if s.overlays.any lineDirtyFlag then
            mapSet s.editedBlocks A (s.overlays.map lineSaved)
          else s.editedBlocks
        activeBlockIdx := -1 } := by
    unfold deactivateBlock
    rw [if_neg hnotneg]
    simp only
    rw [htoNat, hfilter_all, hfilter_none]
  have hact : activateBlock ctx B s = activateFresh ctx B (deactivateBlock s) := by
    unfold activateBlock
    rw [if_neg hguard, if_pos hpos]
  refine ⟨hact, by rw [hdeact], ?_, ?_⟩
  · intro hdirty
    rw [hdeact]
    simp only [hdirty, if_pos]
    exact mapGet_mapSet_self s.editedBlocks A (s.overlays.map lineSaved)
  · intro d hd
    rw [hact] at hd
    unfold activateFresh at hd
    rcases hcase : ctx.paras.get? B with - | para
    · rw [hcase] at hd
      simp only at hd
      rw [hdeact] at hd
      exact absurd hd (List.not_mem_nil d)
    · rw [hcase] at hd
      simp only at hd
      rw [hdeact] at hd
      simp only [List.nil_append] at hd
      exact mem_mkOverlays ctx B _ 0 para d hd

/-! ## Claim C6: no-op activation adds no dirty record -/

/-- A freshly created overlay (no previously saved state) is not dirty: its
text equals `dataset.original`, its normalized HTML equals
`dataset.originalHtml`, all overrides are unset, bold/italic equal their
activation-time values, and the dirty class is clear. -/
theorem mkLineDiv_fresh_clean (ctx : EditContext) (paraIdx li : ℕ) (line : Line) :
    lineDirtyFlag (mkLineDiv ctx paraIdx li line none) = false := by
  unfold mkLineDiv lineDirtyFlag lineHasTextChange lineHasFormatChange lineHasInlineFormatChange
  by_cases h : line.initialHtml = "" <;> simp [h]

theorem mem_mkOverlays_none (ctx : EditContext) (paraIdx : ℕ) :
    ∀ (li : ℕ) (para : List Line) (d : LineDiv),
      d ∈ mkOverlays ctx paraIdx none li para → lineDirtyFlag d = false := by
  intro li para
  induction para generalizing li with
  | nil => intro d hd; exact absurd hd (List.not_mem_nil d)
  | cons line rest ih =>
    intro d hd
    rcases List.mem_cons.1 hd with heq | hmem
    · subst heq; exact mkLineDiv_fresh_clean ctx paraIdx li line
    · exact ih (li + 1) d hmem

/-- Claim C6: activating a block (never previously edited, session idle) and
deactivating it with zero user changes leaves every overlay line non-dirty
and adds no record to the dirty-block store. -/
theorem activate_deactivate_clean (ctx : EditContext) (B : ℕ) (s : EditState)
    (para : List Line) (hidle : s.activeBlockIdx = -1) (hov : s.overlays = [])
    (hpara : ctx.paras.get? B = some para) (hsaved : mapGet s.editedBlocks B = none) :
    (∀ d ∈ (activateBlock ctx B s).overlays, lineDirtyFlag d = false)
    ∧ (deactivateBlock (activateBlock ctx B s)).editedBlocks = s.editedBlocks
    ∧ (deactivateBlock (activateBlock ctx B s)).overlays = [] := by
  have hguard : ¬ ((B : ℤ) = s.activeBlockIdx) := by
    rw [hidle]
    intro h
    omega
  have hfresh : activateBlock ctx B s =
      { s with
        activeBlockIdx := (B : ℤ)
        overlays := s.overlays ++ mkOverlays ctx B none 0 para } := by
    unfold activateBlock activateFresh
    rw [if_neg hguard, hidle]
    rw [if_neg (show ¬ (0 : ℤ) ≤ -1 by norm_num)]
    simp only
    rw [hpara, hsaved]
  have hallB : ∀ d ∈ mkOverlays ctx B none 0 para, d.blockIdx = B := fun d hd =>
    mem_mkOverlays ctx B none 0 para d hd
  have hallClean : ∀ d ∈ mkOverlays ctx B none 0 para, lineDirtyFlag d = false := fun d hd =>
    mem_mkOverlays_none ctx B 0 para d hd
  have hfilterO_all :
      ((mkOverlays ctx B none 0 para).filter fun d => decide (d.blockIdx = B)) =
        mkOverlays ctx B none 0 para := by
    rw [List.filter_eq_self]
    intro d hd
    simp [hallB d hd]
  have hfilterO_none :
      ((mkOverlays ctx B none 0 para).filter fun d => decide (¬ d.blockIdx = B)) = [] := by
    rw [List.filter_eq_nil_iff]
    intro d hd
    simp [hallB d hd]
  have hanyO : (mkOverlays ctx B none 0 para).any lineDirtyFlag = false := by
    rw [List.any_eq_false]
    intro d hd
    simp [hallClean d hd]
  have hdeact : deactivateBlock (activateBlock ctx B s) =
      { s with overlays := [], activeBlockIdx := -1 } := by
    rw [hfresh]
    unfold deactivateBlock
    rw [if_neg (show ¬ ((B : ℤ) < 0) by omega)]
    simp only
    rw [Int.toNat_ofNat, hov, List.nil_append, hfilterO_all, hfilterO_none, hanyO]
    simp
  refine ⟨?_, by rw [hdeact], by rw [hdeact]⟩
  intro d hd
  rw [hfresh] at hd
  simp only [hov, List.nil_append] at hd
  exact hallClean d hd

/-! ### Concrete session fixtures -/

/-- A reconstructed line fixture. -/
def wLine : Line :=
  { text := "Hello", initialHtml := "Hello", left := 5, top := 10, width := 50, height := 12,
    fontSize := 11, fontName := "ArialMT", styleInfo := none, pdfX := 5, pdfY := 700,
    pdfFontSize := 11, pdfLineWidth := 50 }

/-- A two-paragraph context with constant sampler and run-extraction oracles. -/
def wCtx : EditContext :=
  { paras := [[wLine], [wLine]]
    sampleBg := fun _ => "#ffffff"
    sampleText := fun _ _ => "#000000"
    runsOf := fun html b i => [{ text := html, bold := b, italic := i }] }

/-- A live overlay div of block 0 whose text was edited ("Hello" → "Goodbye"). -/
def wDiv : LineDiv :=
  { blockIdx := 0, lineIdx := 0, text := "Goodbye", html := "Goodbye",
    runs := [{ text := "Goodbye", bold := false, italic := false }], original := "Hello",
    originalHtml := "Hello", fontSizeOverride := 0, colorOverride := "",
    fontFamilyOverride := "", fontNameOverride := "", bold := false, italic := false,
    initialBold := false, initialItalic := false, baseBold := false, baseItalic := false,
    dirtyClass := true, matchedColor := "#000000", cssFont := "Arial, Helvetica, sans-serif",
    fontName := "ArialMT", pdfX := 5, pdfY := 700, pdfFontSize := 11, pdfLineWidth := 50,
    width := 50, height := 12, bgColor := "#ffffff" }

/-- A session with block 0 active and edited. -/
def wState : EditState :=
  { active := true, viewportScale := some 1, activeBlockIdx := 0, overlays := [wDiv],
    editedBlocks := [], undoStack := [], redoStack := [], customFont := none }

/-- An idle session (no active block, nothing edited). -/
def wIdle : EditState :=
  { active := true, viewportScale := some 1, activeBlockIdx := -1, overlays := [],
    editedBlocks := [], undoStack := [], redoStack := [], customFont := none }

theorem activateBlock_single_active_witness :
    activateBlock wCtx 1 wState = activateFresh wCtx 1 (deactivateBlock wState)
    ∧ (deactivateBlock wState).overlays = []
    ∧ (wState.overlays.any lineDirtyFlag = true →
        mapGet (deactivateBlock wState).editedBlocks 0 = some (wState.overlays.map lineSaved))
    ∧ (∀ d ∈ (activateBlock wCtx 1 wState).overlays, d.blockIdx = 1) :=
  activateBlock_single_active wCtx 1 0 wState rfl (by decide) (by decide)

theorem activate_deactivate_clean_witness :
    (∀ d ∈ (activateBlock wCtx 0 wIdle).overlays, lineDirtyFlag d = false)
    ∧ (deactivateBlock (activateBlock wCtx 0 wIdle)).editedBlocks = wIdle.editedBlocks
    ∧ (deactivateBlock (activateBlock wCtx 0 wIdle)).overlays = [] :=
  activate_deactivate_clean wCtx 0 wIdle [wLine] rfl rfl rfl rfl

/-! ## Claim C9: undo/redo stack scope

The claim says switching blocks clears the per-block undo/redo history and
that the dirty-block store is unaffected by that clearing.  In this module
version neither `deactivateBlock` nor `activateBlock` touches `undoStack` or
`redoStack` — only `enterTextEditMode` and `exitTextEditMode` reset them —
and `exitTextEditMode` also resets `_editedBlocks` to a fresh map. -/

/-- An undo snapshot fixture. -/
def wSnap : Snap :=
  { text := "x", html := "x", bold := false, italic := false, fontSizeOverride := 0,
    colorOverride := "", fontFamilyOverride := "", fontNameOverride := "" }

/-- A session with block 0 active, a non-empty undo/redo history and a
persisted dirty record. -/
def wStacked : EditState :=
  { active := true, viewportScale := some 1, activeBlockIdx := 0, overlays := [wDiv],
    editedBlocks := [(5, [lineSaved wDiv])], undoStack := [wSnap], redoStack := [wSnap],
    customFont := none }

/-- Counterexample to claim C9 as stated: switching from block 0 to block 1
leaves the undo and redo stacks unchanged (non-empty) instead of clearing
them, and exiting edit mode clears the dirty-block store along with the
stacks (the store is not unaffected). -/
theorem undo_stack_switch_counterexample :
    (activateBlock wCtx 1 wStacked).undoStack = [wSnap]
    ∧ (activateBlock wCtx 1 wStacked).redoStack = [wSnap]
    ∧ ([wSnap] : List Snap) ≠ []
    ∧ wStacked.editedBlocks ≠ []
    ∧ (exitTextEditMode wStacked).editedBlocks = [] := by
  refine ⟨?_, ?_, ?_, ?_, ?_⟩ <;> with_unfolding_all decide

/-- Claim C9 amended: block switches (`activateBlock` after an implicit
`deactivateBlock`) leave the undo/redo stacks unchanged — only exiting (or
re-entering) text edit mode clears them, and that teardown also resets the
dirty-block store; deactivation itself persists dirty state without touching
the stacks. -/
theorem undo_stack_scope_amended (ctx : EditContext) (B : ℕ) (s : EditState) :
    ((activateBlock ctx B s).undoStack = s.undoStack
      ∧ (activateBlock ctx B s).redoStack = s.redoStack)
    ∧ ((deactivateBlock s).undoStack = s.undoStack
      ∧ (deactivateBlock s).redoStack = s.redoStack
      ∧ ((deactivateBlock s).editedBlocks = s.editedBlocks
        ∨ (deactivateBlock s).editedBlocks =
            mapSet s.editedBlocks s.activeBlockIdx.toNat
              ((s.overlays.filter fun d => decide (d.blockIdx = s.activeBlockIdx.toNat)).map
                lineSaved)))
    ∧ (s.active →
        (exitTextEditMode s).undoStack = [] ∧ (exitTextEditMode s).redoStack = []
          ∧ (exitTextEditMode s).editedBlocks = []) := by
  have hde : ∀ t : EditState, (deactivateBlock t).undoStack = t.undoStack
      ∧ (deactivateBlock t).redoStack = t.redoStack := by
    intro t
    unfold deactivateBlock
    by_cases h : t.activeBlockIdx < 0
    · rw [if_pos h]; exact ⟨rfl, rfl⟩
    · rw [if_neg h]; exact ⟨rfl, rfl⟩
  have hfr : ∀ (t : EditState), (activateFresh ctx B t).undoStack = t.undoStack
      ∧ (activateFresh ctx B t).redoStack = t.redoStack := by
    intro t
    unfold activateFresh
    cases ctx.paras.get? B with
    | none => exact ⟨rfl, rfl⟩
    | some para => exact ⟨rfl, rfl⟩
  refine ⟨?_, ?_, ?_⟩
  · unfold activateBlock
    by_cases hg : (B : ℤ) = s.activeBlockIdx
    · rw [if_pos hg]; exact ⟨rfl, rfl⟩
    · rw [if_neg hg]
      by_cases ha : 0 ≤ s.activeBlockIdx
      · rw [if_pos ha]
        exact ⟨((hfr (deactivateBlock s)).1).trans (hde s).1,
          ((hfr (deactivateBlock s)).2).trans (hde s).2⟩
      · rw [if_neg ha]
        exact hfr s
  · refine ⟨(hde s).1, (hde s).2, ?_⟩
    unfold deactivateBlock
    by_cases h : s.activeBlockIdx < 0
    · rw [if_pos h]; exact Or.inl rfl
    · rw [if_neg h]
      simp only
      by_cases hd : (s.overlays.filter fun d =>
          decide (d.blockIdx = s.activeBlockIdx.toNat)).any lineDirtyFlag
      · rw [if_pos hd]; exact Or.inr rfl
      · rw [if_neg hd]; exact Or.inl rfl
  · intro hact
    unfold exitTextEditMode
    rw [if_neg (by simp [hact])]
    exact ⟨rfl, rfl, rfl⟩

theorem undo_stack_scope_amended_witness :
    (((activateBlock wCtx 1 wStacked).undoStack = wStacked.undoStack
      ∧ (activateBlock wCtx 1 wStacked).redoStack = wStacked.redoStack)
    ∧ ((deactivateBlock wStacked).undoStack = wStacked.undoStack
      ∧ (deactivateBlock wStacked).redoStack = wStacked.redoStack
      ∧ ((deactivateBlock wStacked).editedBlocks = wStacked.editedBlocks
        ∨ (deactivateBlock wStacked).editedBlocks =
            mapSet wStacked.editedBlocks wStacked.activeBlockIdx.toNat
              ((wStacked.overlays.filter fun d =>
                decide (d.blockIdx = wStacked.activeBlockIdx.toNat)).map lineSaved)))
    ∧ ((exitTextEditMode wStacked).undoStack = [] ∧ (exitTextEditMode wStacked).redoStack = []
        ∧ (exitTextEditMode wStacked).editedBlocks = [])) :=
  ⟨(undo_stack_scope_amended wCtx 1 wStacked).1,
   (undo_stack_scope_amended wCtx 1 wStacked).2.1,
   (undo_stack_scope_amended wCtx 1 wStacked).2.2 rfl⟩

/-! ## Claim C8: commit and the dirty-block store

The claim says the Commit Engine consumes *and clears* the persisted Block
State records.  `commitTextEdits` reads `_editedBlocks` but never deletes
from it; the store is reset only by the session teardown
(`exitTextEditMode`, which the host invokes after a commit) and by
`enterTextEditMode`. -/

/-- A width oracle fixture (`widthOfTextAtSize` ≈ length × size). -/
def wMeasure : String → String → ℚ → ℚ := fun _ t fs => (t.length : ℚ) * fs

/-- A session holding one previously deactivated dirty block record. -/
def wStored : EditState :=
  { active := true, viewportScale := some 1, activeBlockIdx := -1, overlays := [],
    editedBlocks := [(0, [lineSaved wDiv])], undoStack := [], redoStack := [],
    customFont := none }

set_option maxRecDepth 100000 in
/-- Counterexample to claim C8 as stated: a commit that succeeds (returns a
draw list) leaves the dirty-block store exactly as it was — the committed
dirty record is still present, not removed. -/
theorem commit_store_counterexample :
    ((commitTextEdits wMeasure wStored).2).isSome = true
    ∧ (commitTextEdits wMeasure wStored).1.editedBlocks = [(0, [lineSaved wDiv])]
    ∧ (lineSaved wDiv).dirty = true := by
  refine ⟨?_, ?_, ?_⟩ <;> with_unfolding_all decide

/-- Claim C8 amended: `commitTextEdits` reads but never clears the
dirty-block store — after a commit the store equals what the initial
deactivation left (unchanged when no block was active); the store is
cleared only when the session is torn down by `exitTextEditMode`. -/
theorem commit_preserves_store (measure : String → String → ℚ → ℚ) (s : EditState)
    (hact : s.active) :
    (commitTextEdits measure s).1.editedBlocks =
      (if 0 ≤ s.activeBlockIdx then deactivateBlock s else s).editedBlocks
    ∧ (s.activeBlockIdx < 0 → (commitTextEdits measure s).1.editedBlocks = s.editedBlocks)
    ∧ (exitTextEditMode s).editedBlocks = [] := by
  have hcommit : (commitTextEdits measure s).1 =
      if 0 ≤ s.activeBlockIdx then deactivateBlock s else s := by
    unfold commitTextEdits
    rw [if_neg (by simp [hact])]
    simp only
    by_cases hch : commitChanges (if 0 ≤ s.activeBlockIdx then deactivateBlock s else s) = []
    · rw [if_pos hch]
    · rw [if_neg hch]
  refine ⟨by rw [hcommit], ?_, ?_⟩
  · intro hneg
    rw [hcommit, if_neg (by omega)]
  · unfold exitTextEditMode
    rw [if_neg (by simp [hact])]

theorem commit_preserves_store_witness :
    ((commitTextEdits wMeasure wStored).1.editedBlocks =
        (if 0 ≤ wStored.activeBlockIdx then deactivateBlock wStored else wStored).editedBlocks
      ∧ (wStored.activeBlockIdx < 0 →
          (commitTextEdits wMeasure wStored).1.editedBlocks = wStored.editedBlocks)
      ∧ (exitTextEditMode wStored).editedBlocks = []) :=
  commit_preserves_store wMeasure wStored rfl

/-! ## Claim C2: per-run text drawing -/

/-- The `k`-th text draw of the run loop sits at the cursor start plus the
sum of the measured widths of the preceding runs, in their resolved output
fonts, and draws the `k`-th run. -/
theorem drawRunsLoop_getD (measure : String → String → ℚ → ℚ) (cf : Option String)
    (fontName : String) (color : Rgb) (y fs : ℚ) :
    ∀ (runs : List RichRun) (cursorX : ℚ), (∀ r ∈ runs, r.text ≠ "") →
      (drawRunsLoop measure cf fontName color y fs cursorX runs).length = runs.length
      ∧ ∀ k < runs.length,
          (drawRunsLoop measure cf fontName color y fs cursorX runs).getD k
              (DrawCall.image 0 0 0 0) =
            DrawCall.text (runs.getD k { text := "", bold := false, italic := false }).text
              (cursorX + ((runs.take k).map fun r =>
                measure (getFontName cf fontName r.bold r.italic) r.text fs).sum)
              y fs
              (getFontName cf fontName
                (runs.getD k { text := "", bold := false, italic := false }).bold
                (runs.getD k { text := "", bold := false, italic := false }).italic)
              color := by
  intro runs
  induction runs with
  | nil => intro cursorX _; exact ⟨rfl, fun k hk => absurd hk (by simp)⟩
  | cons r rest ih =>
    intro cursorX hall
    have hr : r.text ≠ "" := hall r (List.mem_cons_self r rest)
    have hrest : ∀ q ∈ rest, q.text ≠ "" := fun q hq => hall q (List.mem_cons_of_mem r hq)
    have hloop : drawRunsLoop measure cf fontName color y fs cursorX (r :: rest) =
        DrawCall.text r.text cursorX y fs (getFontName cf fontName r.bold r.italic) color ::
          drawRunsLoop measure cf fontName color y fs
            (cursorX + measure (getFontName cf fontName r.bold r.italic) r.text fs) rest := by
      simp only [drawRunsLoop]
      rw [if_neg hr]
    obtain ⟨ihlen, ihget⟩ :=
      ih (cursorX + measure (getFontName cf fontName r.bold r.italic) r.text fs) hrest
    constructor
    · rw [hloop]
      simp [ihlen]
    · intro k hk
      cases k with
      | zero =>
        rw [hloop]
        simp [List.getD]
      | succ n =>
        have hn : n < rest.length := by simpa using hk
        rw [hloop]
        have hgd : (DrawCall.text r.text cursorX y fs
              (getFontName cf fontName r.bold r.italic) color ::
            drawRunsLoop measure cf fontName color y fs
              (cursorX + measure (getFontName cf fontName r.bold r.italic) r.text fs)
              rest).getD (n + 1) (DrawCall.image 0 0 0 0) =
            (drawRunsLoop measure cf fontName color y fs
              (cursorX + measure (getFontName cf fontName r.bold r.italic) r.text fs)
              rest).getD n (DrawCall.image 0 0 0 0) := rfl
        rw [hgd, ihget n hn]
        rw [List.take_succ_cons, List.map_cons, List.sum_cons]
        have hshift :
            cursorX + measure (getFontName cf fontName r.bold r.italic) r.text fs +
                ((rest.take n).map fun q =>
                  measure (getFontName cf fontName q.bold q.italic) q.text fs).sum =
              cursorX + (measure (getFontName cf fontName r.bold r.italic) r.text fs +
                ((rest.take n).map fun q =>
                  measure (getFontName cf fontName q.bold q.italic) q.text fs).sum) := by
          ring
        rw [hshift]
        rfl

/-- Claim C2: for every committed change with a non-empty rich-run list,
`commitTextEdits` (whose successful output is the concatenation of
`drawsForChange` over the collected changes) draws the cover rectangle and
then one text draw per run, in list order, starting at the line's original
x, each subsequent draw's x advanced by the measured width of the preceding
runs in their resolved output fonts. -/
theorem commitTextEdits_run_drawing (measure : String → String → ℚ → ℚ)
    (cf : Option String) (scale : ℚ) (ch : Change)
    (hne : ch.runs ≠ []) (hall : ∀ r ∈ ch.runs, r.text ≠ "") :
    (∀ (s : EditState) (ds : List DrawCall), s.active →
      (commitTextEdits measure s).2 = some ds →
      ds = (commitChanges (if 0 ≤ s.activeBlockIdx then deactivateBlock s else s)).flatMap
        (drawsForChange measure
          (if 0 ≤ s.activeBlockIdx then deactivateBlock s else s).customFont
          ((if 0 ≤ s.activeBlockIdx then deactivateBlock s else s).viewportScale.getD 1)))
    ∧ ∃ tds : List DrawCall,
        drawsForChange measure cf scale ch = coverRectOf scale ch :: tds
        ∧ tds.length = ch.runs.length
        ∧ ∀ k < ch.runs.length,
            tds.getD k (DrawCall.image 0 0 0 0) =
              DrawCall.text (ch.runs.getD k { text := "", bold := false, italic := false }).text
                (ch.pdfX + ((ch.runs.take k).map fun r =>
                  measure (getFontName cf ch.fontName r.bold r.italic) r.text
                    (changeFontSize ch)).sum)
                ch.pdfY (changeFontSize ch)
                (getFontName cf ch.fontName
                  (ch.runs.getD k { text := "", bold := false, italic := false }).bold
                  (ch.runs.getD k { text := "", bold := false, italic := false }).italic)
                (changeTextColor ch) := by
  constructor
  · intro s ds hact hds
    unfold commitTextEdits at hds
    rw [if_neg (by simp [hact])] at hds
    simp only at hds
    by_cases hch : commitChanges (if 0 ≤ s.activeBlockIdx then deactivateBlock s else s) = []
    · rw [if_pos hch] at hds
      exact Option.noConfusion hds
    · rw [if_neg hch] at hds
      exact (Option.some.inj hds).symm
  · refine ⟨drawRunsLoop measure cf ch.fontName (changeTextColor ch) ch.pdfY
      (changeFontSize ch) ch.pdfX ch.runs, ?_, ?_, ?_⟩
    · unfold drawsForChange
      rw [if_pos hne]
    · exact (drawRunsLoop_getD measure cf ch.fontName (changeTextColor ch) ch.pdfY
        (changeFontSize ch) ch.runs ch.pdfX hall).1
    · exact (drawRunsLoop_getD measure cf ch.fontName (changeTextColor ch) ch.pdfY
        (changeFontSize ch) ch.runs ch.pdfX hall).2

/-- A committed line edited into one bold sub-run followed by one plain
sub-run. -/
def wChange : Change :=
  { newText := "Hi there", pdfX := 5, pdfY := 700, pdfFontSize := 11, pdfLineWidth := 50,
    fontName := "ArialMT", screenWidth := 50, screenHeight := 12, fontSizeOverride := 0,
    colorOverride := "", bold := false, italic := false,
    runs := [{ text := "Hi", bold := true, italic := false },
             { text := " there", bold := false, italic := false }],
    bgColor := "#ffffff" }

set_option maxRecDepth 8000 in
theorem commitTextEdits_run_drawing_witness :
    drawsForChange wMeasure none 1 wChange =
      [coverRectOf 1 wChange,
       DrawCall.text "Hi" 5 700 11 "HelveticaBold" (changeTextColor wChange),
       DrawCall.text " there" (5 + wMeasure "HelveticaBold" "Hi" 11) 700 11 "Helvetica"
         (changeTextColor wChange)] := by
  obtain ⟨-, tds, heq, hlen, hk⟩ :=
    commitTextEdits_run_drawing wMeasure none 1 wChange (by decide) (by decide)
  have h0 := hk 0 (by decide)
  have h1 := hk 1 (by decide)
  have hlen2 : tds.length = 2 := hlen
  rcases tds with - | ⟨a, - | ⟨b, - | ⟨c, rest⟩⟩⟩
  · simp at hlen2
  · simp at hlen2
  · rw [heq]
    have ha : a = _ := h0
    have hb : b = _ := h1
    rw [ha, hb]
    have hf1 : getFontName none "ArialMT" true false = "HelveticaBold" := by
      with_unfolding_all decide
    have hf2 : getFontName none "ArialMT" false false = "Helvetica" := by
      with_unfolding_all decide
    simp [wChange, hf1, hf2, changeFontSize]
  · simp at hlen2
end Mudbrick
